import Mathlib

/-!
# Dining philosophers over a two-sided fair timed lock (phi.cpp)

A shallow embedding of `phi.cpp`:

* the globals and the `int` arithmetic of `main`'s wiring loop;
* `StickTracker`, `Stick` (priority slot, the inherited `std::timed_mutex`,
  the tracker reached through the `tracker` pointer) and its methods;
* `Person::eat`, `Person::run`, `Person::simulate`;
* the table setup of `main`.

One thread is modelled by explicit state passing over a `World`.  What the
other threads do is an `Env`: it acts on the sticks whenever the modelled
thread is suspended (a sleep, the wait inside `try_lock_until`).  The `log`
of a world records, most recent first, what the modelled thread itself did.

The last part of the definitions for `phi.cpp` is a step function for the
two threads that share one stick, built from the same `Stick` primitives, in
which the load and the compare-exchange of `priority_lock` are separate
atomic steps.

Three further programs follow, each in its own namespace and each run by one
thread: the sieve worker of `prime.cpp` (`Sieve`), the trial-division search
of `prime-rev3.cpp` (`PrimeHive`) and the descriptor stack of `stack.cpp`
(`DescStack`).
-/

namespace Phi

/-! ## Machine integers and globals -/

/-- Value of an `int` expression after two's-complement wrap to 32 bits. -/
def wrapInt32 (x : Int) : Int := (x + 2147483648) % 4294967296 - 2147483648

/-- Global `const int STARVATION_TIME = 15000`, in ms. -/
def STARVATION_TIME : Int := 15000

/-- Global `const int THINKING_TIME = 10`, in ms. -/
def THINKING_TIME : Int := 10

/-- Global `const int EATING_TIME = 500`, in ms. -/
def EATING_TIME : Int := 500

/-- Member `const unsigned int SPIN_WAIT_DELTA = 1`, in ms. -/
def SPIN_WAIT_DELTA : Nat := 1

/-- Member `const int PRIORITY_NONE = 0`. -/
def PRIORITY_NONE : Int := 0

/-- Member `const int PRIORITY_LEFT = 1`. -/
def PRIORITY_LEFT : Int := 1

/-- Member `const int PRIORITY_RIGHT = 2`. -/
def PRIORITY_RIGHT : Int := 2

/-! ## StickTracker -/

/-- The struct `StickTracker`: one `std::atomic<int> state`, constructed with `state(0)`. -/
structure StickTracker where
  state : Int
deriving DecidableEq, Repr

/-- Method `set_right`: `state.store(1)`. -/
def StickTracker.set_right (_t : StickTracker) : StickTracker := { state := 1 }

/-- Method `set_left`: `state.store(-1)`. -/
def StickTracker.set_left (_t : StickTracker) : StickTracker := { state := -1 }

/-- Method `drop`: `state.store(0)`. -/
def StickTracker.drop (_t : StickTracker) : StickTracker := { state := 0 }

/-! ## Stick -/

/-- The struct `Stick : public std::timed_mutex`.  `owner` is the state of the
inherited mutex: `none` when it is free, `some tid` when thread `tid` (an
agent id) owns it.  `tracker` is the tracker object the `tracker` pointer was
wired to (`sticks[i].tracker = &trackers[i]`, one tracker per stick). -/
structure Stick where
  owner : Option Int
  priority : Int
  tracker : StickTracker
deriving DecidableEq, Repr

/-- Constructor `Stick() : priority(PRIORITY_NONE)` over a free mutex and a fresh tracker. -/
def Stick.init : Stick := { owner := none, priority := PRIORITY_NONE, tracker := { state := 0 } }

/-- The call `priority.compare_exchange_strong(expected, desired)`: one atomic step. -/
def Stick.compare_exchange_strong (s : Stick) (expected desired : Int) : Bool × Stick :=
  if s.priority = expected then (true, { s with priority := desired }) else (false, s)

/-- Method `bool priority_lock(int given)` run without interruption:
`if ((int) priority == given) return true;` then the compare-exchange from
`PRIORITY_NONE`. -/
def Stick.priority_lock (s : Stick) (given : Int) : Bool × Stick :=
  if s.priority = given then (true, s)
  else s.compare_exchange_strong PRIORITY_NONE given

/-- Method `priority_unlock`: `priority = PRIORITY_NONE`. -/
def Stick.priority_unlock (s : Stick) : Stick := { s with priority := PRIORITY_NONE }

/-- One attempt of thread `tid` on the mutex: it is taken when it is free. -/
def Stick.try_lock (s : Stick) (tid : Int) : Bool × Stick :=
  if s.owner = none then (true, { s with owner := some tid }) else (false, s)

/-- Method `unlock()` of the inherited mutex.  The call has no way to fail and takes
no caller; the mutex is released. -/
def Stick.unlock (s : Stick) : Stick := { s with owner := none }

/-- A stick held by agent 1, tagged 1, with no reservation. -/
def Stick.heldByOne : Stick :=
  { owner := some 1, priority := PRIORITY_NONE, tracker := { state := 1 } }

/-- Method `drop`: `unlock(); tracker->drop();`. -/
def Stick.drop (s : Stick) : Stick :=
  let s1 := s.unlock
  { s1 with tracker := s1.tracker.drop }

/-! ## One thread's world -/

/-- What the modelled thread did, as recorded in `World.log`. -/
inductive Event where
  /-- entry of `pickup` on stick `stick` with `given_priority = side` -/
  | pickup (stick : Int) (side : Int)
  /-- one call of `priority_lock` and what it returned -/
  | reserve (stick : Int) (ok : Bool)
  /-- the `sleep_for(milliseconds(SPIN_WAIT_DELTA))` of the spin loop -/
  | spin_wait
  /-- the call `try_lock_until(timeout)` and what it returned -/
  | try_lock_until (stick : Int) (ok : Bool)
  /-- the call `priority_unlock()` -/
  | priority_unlock (stick : Int)
  /-- a `return` of `pickup` with its value -/
  | result (stick : Int) (succ : Bool)
  /-- the `sleep_for(milliseconds(time))` of `eat` -/
  | eating (ms : Int)
  /-- the `sleep_for(milliseconds(THINKING_TIME))` of `run` -/
  | thinking (ms : Int)
  /-- the `printf` of the line that says agent `id` has starved and died -/
  | starved (id : Int)
  /-- the increment `deaths++` -/
  | deaths_inc
  /-- the `unlock()` inside `drop` -/
  | unlock (stick : Int)
deriving DecidableEq, Repr

/-- Events of the spin loop of `pickup`. -/
def Event.isSpin : Event → Bool
  | .reserve _ _ => true
  | .spin_wait => true
  | _ => false

/-- Events of the body of one `pickup` call (all it emits but its entry). -/
def Event.isInner : Event → Bool
  | .reserve _ _ => true
  | .spin_wait => true
  | .try_lock_until _ _ => true
  | .priority_unlock _ => true
  | .result _ _ => true
  | _ => false

/-- Events of `eat` and `run` outside the `pickup` calls. -/
def Event.isOuter : Event → Bool
  | .eating _ => true
  | .thinking _ => true
  | .starved _ => true
  | .deaths_inc => true
  | .unlock _ => true
  | _ => false

/-- A `pickup` that returned false. -/
def Event.isFailure : Event → Bool
  | .result _ false => true
  | _ => false

/-- Number of acquisitions in a log that failed. -/
def failures (log : List Event) : Nat := log.countP Event.isFailure

/-- The entries of `pickup` in a log, oldest first, as (stick, side). -/
def attempts (log : List Event) : List (Int × Int) :=
  log.reverse.filterMap fun e =>
    match e with
    | .pickup i side => some (i, side)
    | _ => none

/-- State seen by one thread: the sticks (indexed like `sticks[]`), the
shared counter `deaths`, the clock in ms, the number of suspensions so far
(the index into the environment) and the log. -/
structure World where
  sticks : Int → Stick
  deaths : Int
  now : Nat
  step : Nat
  log : List Event

/-- The other threads and the scheduler.  `others k` is what the other
threads do to the sticks during the `k`-th suspension of the modelled thread,
`elapsed k` the time that suspension takes beyond what was asked for, and
`kill k` whether `kill()` has been called on the modelled agent by then. -/
structure Env where
  others : Nat → (Int → Stick) → (Int → Stick)
  elapsed : Nat → Nat
  kill : Nat → Bool

/-- An environment in which nothing else runs. -/
def Env.quiet : Env := { others := fun _ σ => σ, elapsed := fun _ => 0, kill := fun _ => false }

/-- An environment in which nothing else runs but `kill()` is called on the
agent during its first suspension. -/
def Env.killedLater : Env :=
  { others := fun _ σ => σ, elapsed := fun _ => 0, kill := fun k => decide (0 < k) }

/-- The sticks after the suspensions `k, k+1, ..., k+n-1` when only the
other threads act on them. -/
def Env.alone (env : Env) : Nat → Nat → (Int → Stick) → (Int → Stick)
  | 0, _, σ => σ
  | n + 1, k, σ => env.alone n (k + 1) (env.others k σ)

/-- The other threads neither release a mutex thread `tid` owns nor lock one
in its name. -/
def Env.Respects (env : Env) (tid : Int) : Prop :=
  ∀ k σ i, ((env.others k σ) i).owner = some tid ↔ (σ i).owner = some tid

/-- The world at the start: fresh sticks, `deaths(0)`, time 0. -/
def World.init : World :=
  { sticks := fun _ => Stick.init, deaths := 0, now := 0, step := 0, log := [] }

/-- A world in which agent 7 owns the mutex of stick 0 and the other
sticks are fresh. -/
def World.leftTaken : World :=
  { World.init with
    sticks := fun i => if i = 0 then { Stick.init with owner := some 7 } else Stick.init }

/-- Thread `tid` owns the mutex of stick `i`. -/
def World.Holds (w : World) (tid : Int) (i : Int) : Prop := (w.sticks i).owner = some tid

instance World.decHolds (w : World) (tid : Int) (i : Int) : Decidable (w.Holds tid i) :=
  inferInstanceAs (Decidable ((w.sticks i).owner = some tid))

/-- Append to the log. -/
def World.emit (w : World) (e : Event) : World := { w with log := e :: w.log }

/-- Replace stick `i`. -/
def World.setStick (w : World) (i : Int) (s : Stick) : World :=
  { w with sticks := Function.update w.sticks i s }

/-- A suspension of the thread: the others act, time passes. -/
def World.suspend (env : Env) (w : World) : World :=
  { w with sticks := env.others w.step w.sticks,
           now := w.now + env.elapsed w.step,
           step := w.step + 1 }

/-- The call `std::this_thread::sleep_for(milliseconds(ms))`: at least `ms` pass. -/
def World.sleep_for (env : Env) (ms : Nat) (w : World) : World :=
  let w1 := w.suspend env
  { w1 with now := w1.now + ms }

/-- Method `priority_lock(given)` on stick `i`. -/
def World.priority_lock (w : World) (i : Int) (given : Int) : Bool × World :=
  let r := (w.sticks i).priority_lock given
  (r.1, (w.setStick i r.2).emit (Event.reserve i r.1))

/-- Method `priority_unlock()` on stick `i`. -/
def World.priority_unlock (w : World) (i : Int) : World :=
  (w.setStick i (w.sticks i).priority_unlock).emit (Event.priority_unlock i)

/-- Method `try_lock_until(timeout)` on stick `i` by thread `tid`: the thread waits
(the others act); it returns true with the mutex when the mutex is free, and
false, once the deadline has passed, when it is not. -/
def World.try_lock_until (env : Env) (tid : Int) (i : Int) (timeout : Nat) (w : World) :
    Bool × World :=
  let w1 := w.suspend env
  let r := (w1.sticks i).try_lock tid
  if r.1 then (true, (w1.setStick i r.2).emit (Event.try_lock_until i true))
  else (false, ({ w1 with now := max w1.now timeout }).emit (Event.try_lock_until i false))

/-- The spin loop of `pickup`: while `priority_lock(given)` fails,
`sleep_for(1ms)`, then `return false` when `now() >= timeout`.
The result is `some (true, _)` when the loop is left with the reservation,
`some (false, _)` on the `return false`, and `none` when `fuel` iterations
were not enough. -/
def spin (env : Env) (i : Int) (timeout : Nat) (given : Int) : Nat → World → Option (Bool × World)
  | 0, _ => none
  | fuel + 1, w =>
    let r := w.priority_lock i given
    if r.1 then some (true, r.2)
    else
      let w2 := (r.2.sleep_for env SPIN_WAIT_DELTA).emit Event.spin_wait
      if w2.now ≥ timeout then some (false, w2)
      else spin env i timeout given fuel w2

/-- Method `bool pickup(time_point & timeout, int given_priority)` on stick `i`,
called by thread `tid`.  Every sleep of the loop lasts at least 1 ms, so
`timeout - now + 1` iterations are enough. -/
def pickup (env : Env) (tid : Int) (i : Int) (timeout : Nat) (given : Int) (w : World) :
    Option (Bool × World) :=
  let w0 := w.emit (Event.pickup i given)
  match spin env i timeout given (timeout - w0.now + 1) w0 with
  | none => none
  | some (false, w1) => some (false, w1.emit (Event.result i false))
  | some (true, w1) =>
    let r := w1.try_lock_until env tid i timeout
    let w3 := r.2.priority_unlock i
    some (r.1, w3.emit (Event.result i r.1))

/-- Store into the tracker of stick `i`. -/
def World.setTracker (w : World) (i : Int) (f : StickTracker → StickTracker) : World :=
  w.setStick i { w.sticks i with tracker := f (w.sticks i).tracker }

/-- Method `bool pickup_right(timeout)`: `pickup(timeout, PRIORITY_RIGHT)`, then
`tracker->set_left()` on success. -/
def pickup_right (env : Env) (tid : Int) (i : Int) (timeout : Nat) (w : World) :
    Option (Bool × World) :=
  match pickup env tid i timeout PRIORITY_RIGHT w with
  | none => none
  | some (succ, w1) =>
    some (succ, if succ then w1.setTracker i StickTracker.set_left else w1)

/-- Method `bool pickup_left(timeout)`: `pickup(timeout, PRIORITY_LEFT)`, then
`tracker->set_right()` on success. -/
def pickup_left (env : Env) (tid : Int) (i : Int) (timeout : Nat) (w : World) :
    Option (Bool × World) :=
  match pickup env tid i timeout PRIORITY_LEFT w with
  | none => none
  | some (succ, w1) =>
    some (succ, if succ then w1.setTracker i StickTracker.set_right else w1)

/-- Method `drop()` on stick `i`. -/
def World.drop (w : World) (i : Int) : World :=
  (w.setStick i (w.sticks i).drop).emit (Event.unlock i)

/-! ## Person -/

/-- The struct `Person`: `left` and `right` are the indices in `sticks[]` the
two pointers were wired to; `running` is the flag as the agent itself wrote
it (`kill()` from outside is `Env.kill`). -/
structure Person where
  id : Int
  left : Int
  right : Int
  running : Bool
deriving DecidableEq, Repr

/-- Method `simulate`: `running = true`, then the thread running `Person::run` is started. -/
def Person.simulate (p : Person) : Person := { p with running := true }

/-- The stick `eat` picks up first. -/
def Person.first (p : Person) : Int := if p.id = 0 then p.left else p.right

/-- The stick `eat` picks up second. -/
def Person.second (p : Person) : Int := if p.id = 0 then p.right else p.left

/-- The acquisition part of `eat` (the branch on `id == 0`): the
result is `(have_left, have_right, world)`. -/
def eat_pickups (env : Env) (p : Person) (starve_point : Nat) (w : World) :
    Option (Bool × Bool × World) :=
  if p.id = 0 then
    match pickup_left env p.id p.left starve_point w with
    | none => none
    | some (have_left, w1) =>
      match pickup_right env p.id p.right starve_point w1 with
      | none => none
      | some (have_right, w2) => some (have_left, have_right, w2)
  else
    match pickup_right env p.id p.right starve_point w with
    | none => none
    | some (have_right, w1) =>
      match pickup_left env p.id p.left starve_point w1 with
      | none => none
      | some (have_left, w2) => some (have_left, have_right, w2)

/-- The part of `eat` after the acquisitions: eat or starve, then drop what
is held. -/
def eat_finish (env : Env) (p : Person) (time : Int) (have_left have_right : Bool) (w : World) :
    Person × World :=
  let r : Person × World :=
    if have_left && have_right then
      (p, (w.sleep_for env time.toNat).emit (Event.eating time))
    else
      ({ p with running := false },
       { (w.emit (Event.starved p.id)).emit Event.deaths_inc with deaths := w.deaths + 1 })
  let w1 := if have_left then r.2.drop p.left else r.2
  let w2 := if have_right then w1.drop p.right else w1
  (r.1, w2)

/-- Method `void eat(int time, int starve)`. -/
def eat (env : Env) (p : Person) (time starve : Int) (w : World) : Option (Person × World) :=
  let starve_point := w.now + starve.toNat
  match eat_pickups env p starve_point w with
  | none => none
  | some (have_left, have_right, w1) => some (eat_finish env p time have_left have_right w1)

/-- Method `run`: while `running`, `eat(EATING_TIME, STARVATION_TIME)` then
`sleep_for(THINKING_TIME)`, for at most `fuel` iterations; `none` when the loop is still going then. -/
def run (env : Env) : Nat → Person → World → Option (Person × World)
  | 0, _, _ => none
  | fuel + 1, p, w =>
    if p.running && !env.kill w.step then
      match eat env p EATING_TIME STARVATION_TIME w with
      | none => none
      | some (p1, w1) =>
        run env fuel p1 ((w1.sleep_for env THINKING_TIME.toNat).emit (Event.thinking THINKING_TIME))
    else some (p, w)

/-- The agents' threads, each given as its environment, a bound on its
loop iterations, the agent and the world it starts in.  `deaths` is changed
only by atomic increments, so its final value is that of applying the
agents' increments one agent after the other: each run starts from the
counter the previous ones left, with an empty log.  The result is the final
counter and every agent with the world it ended in. -/
def run_all : List (Env × Nat × Person × World) → Int → Option (Int × List (Person × World))
  | [], d => some (d, [])
  | (env, fuel, p, w) :: rest, d =>
    match run env fuel p { w with deaths := d, log := [] } with
    | none => none
    | some (p1, w1) =>
      match run_all rest w1.deaths with
      | none => none
      | some (d1, rs) => some (d1, (p1, w1) :: rs)

/-- Two agents of a table of two: agent 1 starts with its left stick taken
by someone else and nothing else running; agent 0 starts on fresh sticks and
is stopped by `kill()` after its first cycle. -/
def sampleJobs : List (Env × Nat × Person × World) :=
  [(Env.quiet, 2, { id := 1, left := 0, right := 1, running := true }, World.leftTaken),
   (Env.killedLater, 2, { id := 0, left := 1, right := 0, running := true }, World.init)]

/-- Number of agents in whose run an acquisition failed. -/
def starvedCount (rs : List (Person × World)) : Nat :=
  rs.countP fun r => decide (0 < failures r.2.log)

/-! ## Table setup (`main`) -/

/-- The index `(i - 1 + TABLE_SIZE) % TABLE_SIZE` as `int` arithmetic
computes it: 32-bit wrap of the sum, remainder truncated towards zero. -/
def leftSlot (i TABLE_SIZE : Int) : Int :=
  Int.tmod (wrapInt32 (wrapInt32 (i - 1) + TABLE_SIZE)) TABLE_SIZE

/-- The loop that distributes the sticks: `people[i].id = i`, `people[i].left`,
`people[i].right` for `i = 0 .. TABLE_SIZE - 1`.  The flag `running` is not
written before `simulate()`; it is shown here as false. -/
def distribute (TABLE_SIZE : Int) : List Person :=
  (List.range TABLE_SIZE.toNat).map fun (i : Nat) =>
    { id := (i : Int), left := leftSlot (i : Int) TABLE_SIZE, right := (i : Int),
      running := false }

/-- The same loop's `sticks[i].tracker = &trackers[i]`: the tracker index of
every stick. -/
def wireTrackers (TABLE_SIZE : Int) : List Int :=
  (List.range TABLE_SIZE.toNat).map fun (i : Nat) => (i : Int)

/-- The declarations `Stick sticks[TABLE_SIZE]`, `StickTracker
trackers[TABLE_SIZE]` and `Person people[TABLE_SIZE]`: arrays whose bound is
read at run time.  The result is the number of elements of each array.  A
negative bound has no defined behaviour and gives `none`; a bound of zero
gives empty arrays. -/
def declareArrays (TABLE_SIZE : Int) : Option Nat :=
  if TABLE_SIZE < 0 then none else some TABLE_SIZE.toNat

/-- What the setup of `main` comes to.  `undefinedBound` is not a refusal by
the program, which tests nothing: it stands for the arrays declared with a
negative bound, after which the source determines nothing (the loop that
starts the agents runs over the array `people`, not over `i < TABLE_SIZE`,
so it need not run zero times).  `started people` is the array `people` after
the loop that calls `simulate()`. -/
inductive SetupOutcome where
  | undefinedBound
  | started (people : List Person)
deriving DecidableEq, Repr

/-- The setup of `main` up to and including the loop that calls
`simulate()` on every person: the array declarations, the distributing loop
bounded by `i < TABLE_SIZE`, then the start loop `for (Person & p : people)`
bounded by the array.  With a bound of zero or more the array has exactly
`TABLE_SIZE` elements, each written by the distributing loop, so the start
loop visits the people of `distribute`. -/
def setup (TABLE_SIZE : Int) : SetupOutcome :=
  match declareArrays TABLE_SIZE with
  | none => .undefinedBound
  | some _ => .started ((distribute TABLE_SIZE).map Person.simulate)

/-! ## Two threads on one stick -/

/-- The two users of a stick: the agent that has it as its left stick and
the agent that has it as its right stick. -/
inductive Side where
  | left
  | right
deriving DecidableEq, Repr

/-- The `given_priority` a side passes to `pickup`. -/
def Side.code : Side → Int
  | .left => PRIORITY_LEFT
  | .right => PRIORITY_RIGHT

/-- The other user of the stick. -/
def Side.other : Side → Side
  | .left => .right
  | .right => .left

/-- Where a thread is in its use of the stick. -/
inductive Pc where
  /-- outside `pickup` and `drop`, not owning the mutex -/
  | idle
  /-- in `priority_lock`, before the test `(int) priority == given` -/
  | load
  /-- in `priority_lock`, before the `compare_exchange_strong` -/
  | cas
  /-- in the loop body: `sleep_for`, then the deadline test -/
  | asleep
  /-- past the loop, in `try_lock_until` -/
  | waiting
  /-- after `try_lock_until` returned `succ`, before `priority_unlock` -/
  | unreserve (succ : Bool)
  /-- after `pickup` returned true, before the store into the tracker -/
  | tagging
  /-- after `pickup_left` or `pickup_right` returned true; owning the mutex -/
  | holding
  /-- in `drop`, after `unlock()`, before `tracker->drop()` -/
  | untagging
deriving DecidableEq, Repr

/-- The thread has left the spin loop with the reservation and has not yet
called `priority_unlock`. -/
def Pc.reserved : Pc → Bool
  | .waiting => true
  | .unreserve _ => true
  | _ => false

/-- One stick and its two users.  The owner of the mutex is named by the
side's code. -/
structure Sys where
  stick : Stick
  pcLeft : Pc
  pcRight : Pc
deriving DecidableEq, Repr

/-- A fresh stick and both users outside `pickup`. -/
def Sys.init : Sys := { stick := Stick.init, pcLeft := .idle, pcRight := .idle }

/-- Where a side is. -/
def Sys.pc (s : Sys) : Side → Pc
  | .left => s.pcLeft
  | .right => s.pcRight

/-- Move a side. -/
def Sys.setPc (s : Sys) (side : Side) (pc : Pc) : Sys :=
  match side with
  | .left => { s with pcLeft := pc }
  | .right => { s with pcRight := pc }

/-- What a side stores into the tracker after a successful `pickup`:
`pickup_left` calls `set_right`, `pickup_right` calls `set_left`. -/
def Side.tag (side : Side) (t : StickTracker) : StickTracker :=
  match side with
  | .left => t.set_right
  | .right => t.set_left

/-- One atomic step of the thread of `side`.  `late` tells whether its
deadline has passed: it decides the deadline test of the spin loop and
whether `try_lock_until` gives up. -/
def Sys.step (s : Sys) (side : Side) (late : Bool) : Sys :=
  match s.pc side with
  | .idle => s.setPc side .load
  | .load =>
    if s.stick.priority = side.code then s.setPc side .waiting else s.setPc side .cas
  | .cas =>
    let r := s.stick.compare_exchange_strong PRIORITY_NONE side.code
    if r.1 then ({ s with stick := r.2 } : Sys).setPc side .waiting
    else s.setPc side .asleep
  | .asleep => if late then s.setPc side .idle else s.setPc side .load
  | .waiting =>
    if late then s.setPc side (.unreserve false)
    else
      let r := s.stick.try_lock side.code
      if r.1 then ({ s with stick := r.2 } : Sys).setPc side (.unreserve true)
      else s
  | .unreserve succ =>
    ({ s with stick := s.stick.priority_unlock } : Sys).setPc side
      (if succ then .tagging else .idle)
  | .tagging =>
    ({ s with stick := { s.stick with tracker := side.tag s.stick.tracker } } : Sys).setPc
      side .holding
  | .holding => ({ s with stick := s.stick.unlock } : Sys).setPc side .untagging
  | .untagging =>
    ({ s with stick := { s.stick with tracker := s.stick.tracker.drop } } : Sys).setPc side .idle

/-- Run a schedule: the list of (side, late) of the steps, first step first. -/
def Sys.run (s : Sys) : List (Side × Bool) → Sys
  | [] => s
  | (side, late) :: rest => (s.step side late).run rest

/-- States the two threads can reach from the fresh stick. -/
inductive Reachable : Sys → Prop where
  | init : Reachable Sys.init
  | step (s : Sys) (side : Side) (late : Bool) : Reachable s → Reachable (s.step side late)

/-- The right side takes the mutex, then the left side makes the
reservation and waits for the mutex. -/
def sampleSchedule : List (Side × Bool) :=
  [(.right, false), (.right, false), (.right, false), (.right, false), (.right, false),
   (.right, false), (.left, false), (.left, false), (.left, false), (.left, false)]

end Phi

/-! # The sieve worker of prime.cpp -/

namespace Sieve

/-- Value of a `prime_t` (`unsigned long`, 64 bits) expression after wrap. -/
def wrap64 (x : Nat) : Nat := x % 18446744073709551616

/-- Global `const prime_t PRIME_RANGE = 100000000`. -/
def PRIME_RANGE : Nat := 100000000

/-- Global `const prime_t SQRT_PRIME_RANGE = 10000`. -/
def SQRT_PRIME_RANGE : Nat := 10000

/-- How a run of the worker can fail to give a result: an access outside
the buffer, or a loop that is still going when its bound on the number
of iterations is used up. -/
inductive SieveError where
  | outOfBounds
  | outOfFuel
deriving DecidableEq, Repr

/-- What the worker reads and writes: the cells of the buffer
`is_composite`, the global `last_prime_found`, and the record, most recent
first, of the values it claimed as its working prime. -/
structure SieveState where
  is_composite : Nat → Bool
  last_prime_found : Nat
  claimed : List Nat

/-- The step to the next candidate, `if (prime == 0) prime = 2; else if
(prime == 2) prime = 3; else prime += 2;`. -/
def nextCandidate (prime : Nat) : Nat :=
  if prime = 0 then 2 else if prime = 2 then 3 else wrap64 (prime + 2)

/-- The call `last_prime_found.compare_exchange_strong(last, prime)`. -/
def compare_exchange_strong (st : SieveState) (expected desired : Nat) : Bool × SieveState :=
  if st.last_prime_found = expected then (true, { st with last_prime_found := desired })
  else (false, st)

/-- The `do ... while (!got_it)` loop of `sieve` over a buffer of `R`
entries, entered with the local `prime`.  The result is `none` when the loop
is left by `running = false; break;` and `some prime` when it is left with
`got_it`; reading `is_composite[prime]` with `prime` not below `R` is
outside the buffer. -/
def findPrime (R : Nat) : Nat → Nat → SieveState → Except SieveError (Option Nat × SieveState)
  | 0, _, _ => .error .outOfFuel
  | fuel + 1, prime, st =>
    let prime := nextCandidate prime
    if prime > SQRT_PRIME_RANGE then .ok (none, st)
    else if R ≤ prime then .error .outOfBounds
    else if !st.is_composite prime then
      let last := st.last_prime_found
      if last < prime then
        let r := compare_exchange_strong st last prime
        if r.1 then .ok (some prime, r.2) else findPrime R fuel prime r.2
      else findPrime R fuel last st
    else findPrime R fuel prime st

/-- The loop `for (prime_t i = 2 * prime; i < PRIME_RANGE; i += prime)
is_composite[i] = true;` with `R` in the place of `PRIME_RANGE`, entered
with the local `i`. -/
def markMultiples (R prime : Nat) : Nat → Nat → (Nat → Bool) → Except SieveError (Nat → Bool)
  | 0, _, _ => .error .outOfFuel
  | fuel + 1, i, buf =>
    if i < R then markMultiples R prime fuel (wrap64 (i + prime)) (Function.update buf i true)
    else .ok buf

/-- The `while (running)` loop of `sieve`. -/
def sieveLoop (R : Nat) : Nat → SieveState → Except SieveError SieveState
  | 0, _ => .error .outOfFuel
  | fuel + 1, st =>
    match findPrime R (SQRT_PRIME_RANGE + 2) st.last_prime_found st with
    | .error e => .error e
    | .ok (none, st1) => .ok st1
    | .ok (some prime, st1) =>
      match markMultiples R prime (R + 1) (wrap64 (2 * prime)) st1.is_composite with
      | .error e => .error e
      | .ok buf =>
        sieveLoop R fuel { st1 with is_composite := buf, claimed := prime :: st1.claimed }

/-- The function `void sieve(int id, bool * is_composite)` run by one
worker over a buffer of `R` entries (`PRIME_RANGE` in the source): every
turn of the outer loop claims a larger value, so `SQRT_PRIME_RANGE + 2`
turns are enough. -/
def sieve (R : Nat) (st : SieveState) : Except SieveError SieveState :=
  sieveLoop R (SQRT_PRIME_RANGE + 2) st

/-- The buffer as `main` fills it (`std::fill` with false, then entries 0
and 1 set) with `last_prime_found(0)`. -/
def SieveState.init : SieveState :=
  { is_composite := fun i => decide (i < 2), last_prime_found := 0, claimed := [] }

/-- The values a run claimed, oldest first; the empty list for a run that
failed. -/
def claimedOf (r : Except SieveError SieveState) : List Nat :=
  match r with
  | .ok st => st.claimed.reverse
  | .error _ => []

/-- The error of a run, if it failed. -/
def errorOf (r : Except SieveError SieveState) : Option SieveError :=
  match r with
  | .ok _ => none
  | .error e => some e

/-- No prime number lies above `a` and at or below `b`. -/
def NoPrimeBetween (a b : Nat) : Prop := ∀ q : Nat, Nat.Prime q → a < q → ¬q ≤ b

/-- Below `R` the buffer is set exactly at 0, at 1 and at the proper
multiples of the primes up to `L`. -/
def Marked (R L : Nat) (buf : Nat → Bool) : Prop :=
  ∀ i : Nat, i < R → (buf i = true ↔ (i < 2 ∨ ∃ q : Nat, Nat.Prime q ∧ q ≤ L ∧ q ∣ i ∧ q < i))

/-- What holds between two turns of the outer loop of the single worker:
`last_prime_found` is 0 or a prime up to `SQRT_PRIME_RANGE`, the buffer is
marked for the primes up to it, and the values claimed so far are the
primes up to it, the latest first. -/
def SieveInv (R : Nat) (st : SieveState) : Prop :=
  (st.last_prime_found = 0 ∨ Nat.Prime st.last_prime_found) ∧
  st.last_prime_found ≤ SQRT_PRIME_RANGE ∧
  Marked R st.last_prime_found st.is_composite ∧
  st.claimed.Pairwise (fun a b => b < a) ∧
  ∀ q : Nat, q ∈ st.claimed ↔ (Nat.Prime q ∧ q ≤ st.last_prime_found)

end Sieve

/-! # The trial-division search of prime-rev3.cpp -/

namespace PrimeHive

/-- Value of a `prime_t` (`unsigned long`, 64 bits) expression after wrap. -/
def wrap64 (x : Nat) : Nat := x % 18446744073709551616

/-- The struct `Job`: the primes found, the shared `cur`, the bounds of the
block and the id.  The field `end` of the source is `stop` here, `end` being
reserved. -/
structure Job where
  prime_block : List Nat
  cur : Nat
  start : Nat
  stop : Nat
  id : Int
deriving DecidableEq, Repr

/-- The struct `Hive`: the jobs. -/
structure Hive where
  jobs : List Job
deriving DecidableEq, Repr

/-- Search downwards from `k` for the largest `r` with `r * r ≤ n`. -/
def isqrtFrom (n : Nat) : Nat → Nat
  | 0 => 0
  | k + 1 => if (k + 1) * (k + 1) ≤ n then k + 1 else isqrtFrom n k

/-- The integer square root: the value of `sqrt(test)` converted to
`prime_t`. -/
def isqrt (n : Nat) : Nat := isqrtFrom n n

/-- The inner loop `for (prime_t p : block)` of `is_prime_hive`: true when
it ends in `return false` (an entry divides `test`), false when it ends by
`break` or at the end of the block. -/
def blockDivides (test test_end block_cur : Nat) : List Nat → Bool
  | [] => false
  | p :: rest =>
    if p > block_cur || p ≥ test_end then false
    else if test % p = 0 then true
    else blockDivides test test_end block_cur rest

/-- The loop `for (; p < stop; p += 2)` of `is_prime_hive`: `some (true, _)`
when it ends in `return false`, `some (false, p)` when it ends with the local
at `p`, `none` when `fuel` turns were not enough. -/
def fillDivides (test stop : Nat) : Nat → Nat → Option (Bool × Nat)
  | 0, _ => none
  | fuel + 1, p =>
    if p < stop then
      if test % p = 0 then some (true, p) else fillDivides test stop fuel (wrap64 (p + 2))
    else some (false, p)

/-- The outer loop `for (prime_t p = 3; p <= test_end;)` of `is_prime_hive`
with `job_it` at `hive.jobs.begin()`, which the body never advances.  The
result is the value `is_prime_hive` returns, or `none` when the hive has no
job or `fuel` turns were not enough. -/
def hiveLoop (test test_end : Nat) (hive : Hive) : Nat → Nat → Option Bool
  | 0, _ => none
  | fuel + 1, p =>
    if p ≤ test_end then
      match hive.jobs.head? with
      | none => none
      | some job =>
        let block_cur := job.cur
        if blockDivides test test_end block_cur job.prime_block then some false
        else
          let p := block_cur
          if p ≥ test_end then some true
          else
            let stop := job.start
            let p := if p % 2 = 0 then wrap64 (p + 1) else p
            match fillDivides test stop (stop + 1) p with
            | none => none
            | some (true, _) => some false
            | some (false, p1) => hiveLoop test test_end hive fuel p1
    else some true

/-- The function `bool is_prime_hive(prime_t test, Hive & hive)`;
`sqrt(test)` converted to `prime_t` is the integer square root. -/
def is_prime_hive (test : Nat) (hive : Hive) : Option Bool :=
  if test % 2 = 0 then some false
  else hiveLoop test (isqrt test) hive (isqrt test + 2) 3

/-- Replace job `k` of the hive. -/
def Hive.setJob (hive : Hive) (k : Nat) (job : Job) : Hive :=
  { hive with jobs := hive.jobs.set k job }

/-- The loop `for (prime_t t = job.start; t < job.end; t += 2)` of
`find_primes` on job `k` of the hive. -/
def findLoop (k : Nat) : Nat → Nat → Hive → Option Hive
  | 0, _, _ => none
  | fuel + 1, t, hive =>
    match hive.jobs[k]? with
    | none => none
    | some job =>
      if t < job.stop then
        match is_prime_hive t hive with
        | none => none
        | some succ =>
          let job1 := if succ then { job with prime_block := job.prime_block ++ [t] } else job
          let job2 := { job1 with cur := t }
          findLoop k fuel (wrap64 (t + 2)) (hive.setJob k job2)
      else some hive

/-- The function `void find_primes(Hive & hive, Job & job)` with `job` the
job `k` of the hive. -/
def find_primes (hive : Hive) (k : Nat) : Option Hive :=
  match hive.jobs[k]? with
  | none => none
  | some job =>
    let job1 :=
      if job.start ≤ 2 then { job with prime_block := job.prime_block ++ [2], start := 3 }
      else job
    let job2 := if job1.start % 2 = 0 then { job1 with start := wrap64 (job1.start + 1) } else job1
    findLoop k (job2.stop + 1) job2.start (hive.setJob k job2)

/-- A hive of one job covering `[0, stop)` as `main` sets it up for one
thread: `start = 0`, `cur = start`, no primes yet. -/
def Hive.single (stop : Nat) : Hive :=
  { jobs := [{ prime_block := [], cur := 0, start := 0, stop := stop, id := 0 }] }

/-- The primes the first job of a hive holds after a run. -/
def blockOf (r : Option Hive) : List Nat :=
  match r with
  | some hive => (hive.jobs.head?.map Job.prime_block).getD []
  | none => []

end PrimeHive

/-! # The descriptor stack of stack.cpp -/

namespace DescStack

/-- Value of an `int` expression after two's-complement wrap to 32 bits. -/
def wrapInt32 (x : Int) : Int := (x + 2147483648) % 4294967296 - 2147483648

/-- The struct `Descriptor`: the head node, by address (0 is `nullptr`), and
the size. -/
structure Descriptor where
  head : Nat
  size : Int
deriving DecidableEq, Repr

/-- The class `Stack`: the counter `numOps`, the descriptor `desc` points
to, and the memory it writes to: the field `next` of the node at each
address. -/
structure Stack where
  numOps : Int
  desc : Descriptor
  next : Nat → Nat

/-- The constructor `Stack()`: a descriptor with `head = nullptr` and
`size = 0`, `numOps = 0`, over node memory `next`. -/
def Stack.init (next : Nat → Nat) : Stack :=
  { numOps := 0, desc := { head := 0, size := 0 }, next := next }

/-- The `do ... while (!succ)` loop of `push`: load the descriptor, set
`newNode->next`, build the new descriptor, and swap it in when `desc` is
still the descriptor that was loaded. -/
def Stack.pushLoop (newNode : Nat) : Nat → Stack → Option Stack
  | 0, _ => none
  | fuel + 1, s =>
    let curDesc := s.desc
    let s1 : Stack := { s with next := Function.update s.next newNode curDesc.head }
    let newDesc : Descriptor := { head := newNode, size := wrapInt32 (curDesc.size + 1) }
    if s1.desc = curDesc then some { s1 with desc := newDesc }
    else Stack.pushLoop newNode fuel s1

/-- The method `bool push(Node * newNode)`.  With the calls run one at a
time the swap succeeds in the first turn of the loop. -/
def Stack.push (s : Stack) (newNode : Nat) : Option (Bool × Stack) :=
  if newNode = 0 then some (false, s)
  else
    match Stack.pushLoop newNode 1 s with
    | none => none
    | some s1 => some (true, { s1 with numOps := wrapInt32 (s1.numOps + 1) })

/-- The `do ... while (!succ)` loop of `pop`, with its `return nullptr`:
the result is the node popped, 0 for `nullptr`, and whether the loop was left
by the swap. -/
def Stack.popLoop : Nat → Stack → Option (Nat × Bool × Stack)
  | 0, _ => none
  | fuel + 1, s =>
    let curDesc := s.desc
    let popped := curDesc.head
    if popped = 0 then some (0, false, s)
    else
      let newHead := s.next popped
      let newDesc : Descriptor := { head := newHead, size := wrapInt32 (curDesc.size - 1) }
      if s.desc = curDesc then some (popped, true, { s with desc := newDesc })
      else Stack.popLoop fuel s

/-- The method `Node * pop()`. -/
def Stack.pop (s : Stack) : Option (Nat × Stack) :=
  match Stack.popLoop 1 s with
  | none => none
  | some (popped, false, s1) => some (popped, s1)
  | some (popped, true, s1) => some (popped, { s1 with numOps := wrapInt32 (s1.numOps + 1) })

/-- The method `int size()`. -/
def Stack.size (s : Stack) : Int × Stack :=
  (s.desc.size, { s with numOps := wrapInt32 (s.numOps + 1) })

/-- A call on the stack. -/
inductive Op where
  | push (node : Nat)
  | pop
  | size
deriving DecidableEq, Repr

/-- What a call returns. -/
inductive Ret where
  | pushed (ok : Bool)
  | popped (node : Nat)
  | size (n : Int)
deriving DecidableEq, Repr

/-- One call. -/
def Stack.apply (s : Stack) : Op → Option (Ret × Stack)
  | .push node =>
    match s.push node with
    | none => none
    | some (ok, s1) => some (.pushed ok, s1)
  | .pop =>
    match s.pop with
    | none => none
    | some (node, s1) => some (.popped node, s1)
  | .size => some (.size s.size.1, s.size.2)

/-- A sequence of calls, one at a time: what they return, and the stack
after the last. -/
def Stack.run (s : Stack) : List Op → Option (List Ret × Stack)
  | [] => some ([], s)
  | op :: rest =>
    match s.apply op with
    | none => none
    | some (r, s1) =>
      match s1.run rest with
      | none => none
      | some (rs, s2) => some (r :: rs, s2)

/-- The LIFO list the stack is to behave as, one call: `push` of a
non-null node returns true and puts it on top, `push(null)` returns false and
changes nothing, `pop` returns and removes the top, or returns null on the
empty list, `size` is the length. -/
def specApply (l : List Nat) : Op → Ret × List Nat
  | .push node => if node = 0 then (.pushed false, l) else (.pushed true, node :: l)
  | .pop =>
    match l with
    | [] => (.popped 0, [])
    | x :: xs => (.popped x, xs)
  | .size => (.size (l.length : Int), l)

/-- The LIFO list over a sequence of calls. -/
def specRun (l : List Nat) : List Op → List Ret × List Nat
  | [] => ([], l)
  | op :: rest => ((specApply l op).1 :: (specRun (specApply l op).2 rest).1,
                   (specRun (specApply l op).2 rest).2)

/-- The nodes reachable from `head` along `next`, in order, are `l`. -/
def Chain (next : Nat → Nat) : Nat → List Nat → Prop
  | head, [] => head = 0
  | head, x :: xs => head = x ∧ x ≠ 0 ∧ Chain next (next x) xs

/-- The non-null nodes a sequence of calls pushes. -/
def pushedNodes (ops : List Op) : List Nat :=
  ops.filterMap fun op =>
    match op with
    | .push node => if node = 0 then none else some node
    | _ => none

/-- Every push of a sequence is of null or of a node that is not in the
list then. -/
def FreshOk : List Nat → List Op → Prop
  | _, [] => True
  | l, op :: rest =>
    (∀ node : Nat, op = .push node → node ≠ 0 → node ∉ l) ∧ FreshOk (specApply l op).2 rest

/-- The list never holds more than `INT_MAX` nodes over a sequence of
calls. -/
def DepthOk : List Nat → List Op → Prop
  | l, [] => l.length ≤ 2147483647
  | l, op :: rest => l.length ≤ 2147483647 ∧ DepthOk (specApply l op).2 rest

/-- A `size` result as an `int` holds it. -/
def Ret.wrap : Ret → Ret
  | .size n => .size (wrapInt32 n)
  | r => r

/-- A push that returned true. -/
def Ret.isPushed : Ret → Bool
  | .pushed true => true
  | _ => false

/-- A pop that returned a node. -/
def Ret.isNode : Ret → Bool
  | .popped node => decide (node ≠ 0)
  | _ => false

/-- Number of pushes that returned true. -/
def pushCount (rets : List Ret) : Nat := rets.countP Ret.isPushed

/-- Number of pops that returned a node. -/
def popCount (rets : List Ret) : Nat := rets.countP Ret.isNode

/-- Pushes of the nodes at addresses `1, ..., n`. -/
def manyPushes (n : Nat) : List Op := (List.range n).map fun (i : Nat) => Op.push (i + 1)

/-- A short sequence of calls: two pushes, a push of null, and one pop more
than there are nodes. -/
def sampleOps : List Op :=
  [.push 1, .push 2, .size, .pop, .push 0, .pop, .pop, .size]

/-- The stack relates to the list: the chain from `head` is the list and
the `int` `size` holds its length. -/
def Rel (s : Stack) (l : List Nat) : Prop :=
  Chain s.next s.desc.head l ∧ s.desc.size = wrapInt32 (l.length : Int)

end DescStack
namespace Phi

/-! ## Arithmetic of the wiring loop -/

theorem wrapInt32_of_range (x : Int) (h1 : -2147483648 ≤ x) (h2 : x ≤ 2147483647) :
    wrapInt32 x = x := by
  unfold wrapInt32
  omega

theorem leftSlot_eq (N i : Int) (hN : 1 ≤ N) (h0 : 0 ≤ i) (_hi : i < N)
    (hsum : i - 1 + N ≤ 2147483647) : leftSlot i N = (i - 1) % N := by
  unfold leftSlot
  rw [wrapInt32_of_range (i - 1) (by omega) (by omega),
    wrapInt32_of_range (i - 1 + N) (by omega) hsum,
    Int.tmod_eq_emod (by omega) (by omega), Int.add_emod_self]

theorem mem_distribute (N : Int) (p : Person) :
    p ∈ distribute N ↔ ∃ i : Nat, i < N.toNat ∧
      p = { id := (i : Int), left := leftSlot i N, right := (i : Int), running := false } := by
  unfold distribute
  simp only [List.mem_map, List.mem_range]
  constructor
  · rintro ⟨i, hi, rfl⟩
    exact ⟨i, hi, rfl⟩
  · rintro ⟨i, hi, rfl⟩
    exact ⟨i, hi, rfl⟩

theorem distribute_length (N : Int) : (distribute N).length = N.toNat := by
  simp [distribute]

theorem distribute_nodup (N : Int) : (distribute N).Nodup := by
  unfold distribute
  refine List.Nodup.map ?_ (List.nodup_range _)
  intro a b hab
  have := congrArg Person.id hab
  simpa using this

theorem distribute_get (N : Int) (i : Int) (h0 : 0 ≤ i) (hi : i < N) :
    (distribute N)[i.toNat]? =
      some { id := i, left := leftSlot i N, right := i, running := false } := by
  unfold distribute
  have h : i.toNat < N.toNat := by omega
  have hc : ((i.toNat : Nat) : Int) = i := Int.toNat_of_nonneg h0
  simp [List.getElem?_map, List.getElem?_range h, hc]


theorem prev_slot (N i : Int) (h0 : 0 ≤ i) (hi : i < N) :
    (i - 1) % N = if i = 0 then N - 1 else i - 1 := by
  split
  · next h =>
    subst h
    have h1 : (0 - 1 : Int) % N = (N - 1) % N := by
      rw [← Int.add_emod_self]
      congr 1
      omega
    rw [h1]
    refine Int.emod_eq_of_lt ?_ ?_ <;> omega
  · next h => refine Int.emod_eq_of_lt ?_ ?_ <;> omega

theorem next_slot (N j : Int) (h0 : 0 ≤ j) (hj : j < N) :
    (j + 1) % N = if j = N - 1 then 0 else j + 1 := by
  split
  · next h =>
    subst h
    have : (N - 1 + 1 : Int) = N := by omega
    rw [this, Int.emod_self]
  · next h => refine Int.emod_eq_of_lt ?_ ?_ <;> omega

/-- The agent the wiring loop builds for index `i` when no `int` overflows. -/
theorem person_of_mem (N : Int) (hN : 2 ≤ N) (hmax : N ≤ 1073741824) (p : Person)
    (hp : p ∈ distribute N) :
    0 ≤ p.id ∧ p.id < N ∧ p.left = (p.id - 1) % N ∧ p.right = p.id ∧ p.running = false := by
  obtain ⟨i, hi, rfl⟩ := (mem_distribute N p).1 hp
  have h1 : (i : Int) < N := by omega
  refine ⟨by simp, h1, ?_, rfl, rfl⟩
  exact leftSlot_eq N i (by omega) (by omega) h1 (by omega)

theorem mem_of_person (N : Int) (hN : 2 ≤ N) (hmax : N ≤ 1073741824) (i : Int)
    (h0 : 0 ≤ i) (hi : i < N) :
    ({ id := i, left := (i - 1) % N, right := i, running := false } : Person) ∈ distribute N := by
  refine (mem_distribute N _).2 ⟨i.toNat, by omega, ?_⟩
  have hc : ((i.toNat : Nat) : Int) = i := Int.toNat_of_nonneg h0
  rw [hc, leftSlot_eq N i (by omega) h0 hi (by omega)]

/-- C1 (amended): for every table size `2 ≤ N ≤ 2^30` the wiring loop gives
agent `i` the stick at ring slot `(i - 1) mod N` as its left and the stick at
slot `i` as its right; the two differ, and every slot `j` is the right stick
of agent `j`, the left stick of agent `(j + 1) mod N`, and the stick of no
other agent: exactly two agents refer to it. -/
theorem ring_wiring (N : Int) (hN : 2 ≤ N) (hmax : N ≤ 1073741824) :
    (∀ i : Int, 0 ≤ i → i < N →
      ∃ p, (distribute N)[i.toNat]? = some p ∧ p.id = i ∧ p.left = (i - 1) % N ∧
        p.right = i ∧ p.left ≠ p.right) ∧
    (∀ j : Int, 0 ≤ j → j < N →
      (∀ p ∈ distribute N, (p.right = j ↔ p.id = j) ∧ (p.left = j ↔ p.id = (j + 1) % N)) ∧
      j ≠ (j + 1) % N ∧
      ((distribute N).filter
        (fun p => decide (p.left = j) || decide (p.right = j))).length = 2) := by
  have hmem : ∀ j : Int, 0 ≤ j → j < N → ∀ p ∈ distribute N,
      (p.right = j ↔ p.id = j) ∧ (p.left = j ↔ p.id = (j + 1) % N) := by
    intro j hj0 hjN p hp
    obtain ⟨h0, hi, hl, hr, -⟩ := person_of_mem N hN hmax p hp
    rw [hl, hr, prev_slot N p.id h0 hi, next_slot N j hj0 hjN]
    constructor
    · exact Iff.rfl
    · split <;> split <;> constructor <;> intro h <;> omega
  have hne : ∀ j : Int, 0 ≤ j → j < N → j ≠ (j + 1) % N := by
    intro j hj0 hjN
    rw [next_slot N j hj0 hjN]
    split <;> omega
  refine ⟨?_, ?_⟩
  · intro i h0 hi
    refine ⟨{ id := i, left := (i - 1) % N, right := i, running := false }, ?_, rfl, rfl, rfl, ?_⟩
    · rw [distribute_get N i h0 hi, leftSlot_eq N i (by omega) h0 hi (by omega)]
    · show (i - 1) % N ≠ i
      rw [prev_slot N i h0 hi]
      split <;> omega
  · intro j hj0 hjN
    refine ⟨hmem j hj0 hjN, hne j hj0 hjN, ?_⟩
    have hk0 : 0 ≤ (j + 1) % N := Int.emod_nonneg _ (by omega)
    have hkN : (j + 1) % N < N := Int.emod_lt_of_pos _ (by omega)
    have hnd : ((distribute N).filter
        (fun p => decide (p.left = j) || decide (p.right = j))).Nodup :=
      (distribute_nodup N).filter _
    have hnd2 : ([{ id := j, left := (j - 1) % N, right := j, running := false },
        { id := (j + 1) % N, left := ((j + 1) % N - 1) % N, right := (j + 1) % N,
          running := false }] : List Person).Nodup := by
      have hjk := hne j hj0 hjN
      simp
      intro h
      exact absurd h hjk
    have hperm := (List.perm_ext_iff_of_nodup hnd hnd2).2 (by
      intro p
      simp only [List.mem_filter, Bool.or_eq_true, decide_eq_true_eq, List.mem_cons,
        List.mem_singleton, List.not_mem_nil, or_false]
      constructor
      · rintro ⟨hp, h⟩
        obtain ⟨h0, hi, hl, hr, hrun⟩ := person_of_mem N hN hmax p hp
        have hm := hmem j hj0 hjN p hp
        rcases h with h | h
        · right
          have hid := hm.2.1 h
          cases p
          simp only [Person.mk.injEq] at *
          subst hid
          exact ⟨rfl, hl, hr, hrun⟩
        · left
          have hid := hm.1.1 h
          cases p
          simp only [Person.mk.injEq] at *
          subst hid
          exact ⟨rfl, hl, hr, hrun⟩
      · rintro (h | h)
        · subst h
          exact ⟨mem_of_person N hN hmax j hj0 hjN, Or.inr rfl⟩
        · subst h
          refine ⟨mem_of_person N hN hmax _ hk0 hkN, Or.inl ?_⟩
          exact ((hmem j hj0 hjN _ (mem_of_person N hN hmax _ hk0 hkN)).2).2 rfl)
    simpa using hperm.length_eq

/-- The table of two: agent 1 has slot 0 on its left and slot 1 on its
right, and slot 0 is referred to by exactly two agents. -/
theorem ring_wiring_witness :
    (∃ p, (distribute 2)[(1 : Int).toNat]? = some p ∧ p.id = 1 ∧ p.left = (1 - 1) % 2 ∧
      p.right = 1 ∧ p.left ≠ p.right) ∧
    ((distribute 2).filter
      (fun p => decide (p.left = 0) || decide (p.right = 0))).length = 2 :=
  ⟨(ring_wiring 2 (by decide) (by decide)).1 1 (by decide) (by decide),
   ((ring_wiring 2 (by decide) (by decide)).2 0 (by decide) (by decide)).2.2⟩

/-- C1, as stated, fails where `i - 1 + TABLE_SIZE` leaves the range of
`int`: at table size `2^30 + 1` the agent with id `2^30` gets the index
`-1073741823` as its left stick, not ring slot `(i - 1) mod N = 2^30 - 1`. -/
theorem ring_wiring_counterexample :
    ∃ p ∈ distribute 1073741825,
      p.id = 1073741824 ∧ p.left = -1073741823 ∧ p.left ≠ (p.id - 1) % 1073741825 := by
  refine ⟨{ id := 1073741824, left := leftSlot 1073741824 1073741825, right := 1073741824,
            running := false }, ?_, rfl, by decide, by decide⟩
  exact (mem_distribute _ _).2 ⟨1073741824, by decide, rfl⟩


/-! ## Table sizes below 2 -/

/-- C9 (amended): the setup refuses no table size, since `main` tests
nothing.  For `n = 1` it wires and starts the single agent 0 with ring slot 0
as both its left and its right stick; for `n = 0` the arrays are empty and
both loops run zero times, so no stick is wired and no agent is started; for
`n < 0` the arrays are declared with a negative bound and the behaviour is
undefined, so in no case below 2 is the outcome a refusal. -/
theorem setup_small (n : Int) (hn : n < 2) :
    (n = 1 → setup n = .started [{ id := 0, left := 0, right := 0, running := true }] ∧
      wireTrackers n = [0]) ∧
    (n = 0 → setup n = .started [] ∧ wireTrackers n = []) ∧
    (n < 0 → declareArrays n = none ∧ setup n = .undefinedBound) := by
  refine ⟨?_, ?_, ?_⟩
  · rintro rfl
    exact ⟨by decide, by decide⟩
  · rintro rfl
    exact ⟨by decide, by decide⟩
  · intro h
    have hd : declareArrays n = none := by simp [declareArrays, h]
    exact ⟨hd, by simp [setup, hd]⟩

theorem setup_small_witness :
    (1 : Int) < 2 ∧
    setup 1 = .started [{ id := 0, left := 0, right := 0, running := true }] ∧
    wireTrackers 1 = [0] :=
  ⟨by decide, (setup_small 1 (by decide)).1 rfl⟩

/-- C9, as stated, fails at table size 1: the setup constructs and starts an
agent whose left and right sticks are the same ring slot. -/
theorem setup_one_counterexample :
    ∃ p : Person, setup 1 = .started [p] ∧ p.left = p.right ∧ p.running = true :=
  ⟨{ id := 0, left := 0, right := 0, running := true }, by decide, rfl, rfl⟩

/-! ## priority_lock -/

theorem priority_lock_eq (st : Stick) (s : Int) :
    st.priority_lock s =
      if st.priority = PRIORITY_NONE ∨ st.priority = s then (true, { st with priority := s })
      else (false, st) := by
  rcases st with ⟨o, p, t⟩
  unfold Stick.priority_lock Stick.compare_exchange_strong PRIORITY_NONE
  by_cases h1 : p = s
  · subst h1
    simp
  · by_cases h2 : p = 0 <;> simp [h1, h2]

theorem priority_lock_keeps_owner (st : Stick) (s : Int) :
    (st.priority_lock s).2.owner = st.owner := by
  rw [priority_lock_eq]
  split <;> rfl

theorem priority_lock_slot (st : Stick) (s : Int) (h : (st.priority_lock s).1 = true) :
    (st.priority_lock s).2.priority = s := by
  rw [priority_lock_eq] at h ⊢
  split
  · rfl
  · next hc => simp [hc] at h

/-- C3: one call of `priority_lock s` on a slot holding `p` returns true
exactly when `p` is none or `s`, and the slot then holds `s`; otherwise it
returns false and the stick is unchanged.  So the slot is written only from
none to the requested side, a repeated reservation by the holder succeeds
without a change, and after a successful reservation by one side a
reservation by the other side fails until `priority_unlock`, which makes the
slot none. -/
theorem priority_lock_spec (st : Stick) (s : Int) :
    ((st.priority_lock s).1 = true ↔ (st.priority = PRIORITY_NONE ∨ st.priority = s)) ∧
    ((st.priority_lock s).1 = true → (st.priority_lock s).2.priority = s) ∧
    ((st.priority_lock s).1 = false → (st.priority_lock s).2 = st) ∧
    ((st.priority_lock s).2.priority ≠ st.priority →
      st.priority = PRIORITY_NONE ∧ (st.priority_lock s).2.priority = s) ∧
    (st.priority = s → st.priority_lock s = (true, st)) ∧
    ((st.priority_lock s).2.owner = st.owner ∧ (st.priority_lock s).2.tracker = st.tracker) ∧
    (∀ s2 : Int, s ≠ PRIORITY_NONE → s2 ≠ s → (st.priority_lock s).1 = true →
      ((st.priority_lock s).2.priority_lock s2).1 = false ∧
      (((st.priority_lock s).2.priority_unlock).priority_lock s2).1 = true) ∧
    (st.priority_unlock).priority = PRIORITY_NONE := by
  rcases st with ⟨o, p, t⟩
  by_cases hc : p = PRIORITY_NONE ∨ p = s
  · have h1 : (Stick.mk o p t).priority_lock s = (true, { owner := o, priority := s, tracker := t }) := by
      rw [priority_lock_eq]
      simp [hc]
    rw [h1]
    refine ⟨by simp [hc], by simp, by simp, ?_, ?_, by simp, ?_, rfl⟩
    · intro hne
      rcases hc with hc | hc
      · exact ⟨hc, rfl⟩
      · exact absurd hc.symm hne
    · intro hp
      simp only at hp
      rw [hp]
    · intro s2 hs hs2 _
      constructor
      · rw [priority_lock_eq]
        simp [hs, Ne.symm hs2]
      · rw [priority_lock_eq]
        simp [Stick.priority_unlock]
  · have h1 : (Stick.mk o p t).priority_lock s = (false, { owner := o, priority := p, tracker := t }) := by
      rw [priority_lock_eq]
      simp only [hc, if_false]
    rw [h1]
    simp only [not_or] at hc
    refine ⟨by simp [hc], by simp, by simp, by simp, ?_, by simp, ?_, rfl⟩
    · intro hp
      exact absurd hp hc.2
    · intro s2 _ _ h
      simp at h

/-- Reservations on the three values a slot takes: from none either side
succeeds, a side that holds the slot succeeds again, the other side fails. -/
theorem priority_lock_spec_witness :
    ((Stick.init.priority_lock PRIORITY_LEFT).2.priority_lock PRIORITY_RIGHT).1 = false ∧
    (((Stick.init.priority_lock PRIORITY_LEFT).2.priority_unlock).priority_lock
      PRIORITY_RIGHT).1 = true :=
  (priority_lock_spec Stick.init PRIORITY_LEFT).2.2.2.2.2.2.1 PRIORITY_RIGHT
    (by decide) (by decide) (by decide)

/-! ## drop -/

/-- C8 (amended): `drop` checks nothing and cannot fail: it takes no caller,
and from every state of the stick, held by the caller or not, it returns
with the tag set to free (0), the priority slot untouched and the mutex
released, so that no thread owns the stick afterwards; the other sticks and
the counter are untouched, and the one `unlock()` is what it adds to the
log. -/
theorem drop_unchecked (w : World) (i : Int) :
    (w.sticks i).drop =
      { owner := none, priority := (w.sticks i).priority, tracker := { state := 0 } } ∧
    (w.drop i).sticks i = (w.sticks i).drop ∧
    (∀ tid : Int, ¬(w.drop i).Holds tid i) ∧
    (∀ j : Int, j ≠ i → (w.drop i).sticks j = w.sticks j) ∧
    (w.drop i).log = Event.unlock i :: w.log ∧
    (w.drop i).deaths = w.deaths := by
  have h1 : (w.drop i).sticks i = (w.sticks i).drop := by
    simp [World.drop, World.emit, World.setStick]
  refine ⟨?_, h1, ?_, ?_, rfl, rfl⟩
  · simp [Stick.drop, Stick.unlock, StickTracker.drop]
  · intro tid
    unfold World.Holds
    rw [h1]
    simp [Stick.drop, Stick.unlock]
  · intro j hj
    simp [World.drop, World.emit, World.setStick, Function.update_noteq hj]

/-- C8, as stated, fails on a stick that another agent holds: agent 0 does
not hold it, yet `drop` returns normally, the tag goes from 1 to 0 and the
mutex from held to free. -/
theorem drop_counterexample :
    Stick.heldByOne.owner ≠ some 0 ∧
    (Stick.heldByOne.drop).tracker.state ≠ Stick.heldByOne.tracker.state ∧
    (Stick.heldByOne.drop).owner ≠ Stick.heldByOne.owner := by
  decide


/-! ## The spin loop -/

theorem spin_total (env : Env) (i : Int) (timeout : Nat) (given : Int) :
    ∀ (fuel : Nat) (w : World), timeout - w.now < fuel →
      ∃ r, spin env i timeout given fuel w = some r := by
  intro fuel
  induction fuel with
  | zero => intro w h; omega
  | succ n ih =>
    intro w h
    unfold spin
    by_cases h1 : (w.priority_lock i given).1 = true
    · simp [h1]
    · simp only [h1]
      by_cases h2 : (((w.priority_lock i given).2.sleep_for env SPIN_WAIT_DELTA).emit
          Event.spin_wait).now ≥ timeout
      · simp [h2]
      · simp only [h2]
        apply ih
        simp only [World.emit, World.sleep_for, World.suspend, World.priority_lock,
          World.setStick, SPIN_WAIT_DELTA] at h2 ⊢
        omega

/-- Induction over the iterations of the spin loop: a transitive relation
kept by `priority_lock` and by the sleep is kept by the loop. -/
theorem spin_induct (env : Env) (i : Int) (timeout : Nat) (given : Int)
    (R : World → World → Prop)
    (hlock : ∀ w, R w (w.priority_lock i given).2)
    (hsleep : ∀ w, R w ((w.sleep_for env SPIN_WAIT_DELTA).emit Event.spin_wait))
    (htrans : ∀ a b c, R a b → R b c → R a c) :
    ∀ (fuel : Nat) (w : World) (b : Bool) (w' : World),
      spin env i timeout given fuel w = some (b, w') → R w w' := by
  intro fuel
  induction fuel with
  | zero => intro w b w' h; simp [spin] at h
  | succ n ih =>
    intro w b w' h
    unfold spin at h
    simp only at h
    split at h
    · simp only [Option.some.injEq, Prod.mk.injEq] at h
      rw [← h.2]
      exact hlock w
    · split at h
      · simp only [Option.some.injEq, Prod.mk.injEq] at h
        rw [← h.2]
        exact htrans _ _ _ (hlock w) (hsleep _)
      · exact htrans _ _ _ (htrans _ _ _ (hlock w) (hsleep _)) (ih _ _ _ h)

/-- How the spin loop is left: with the reservation just made by a
successful `priority_lock`, or after a sleep that ended past the deadline. -/
theorem spin_exit (env : Env) (i : Int) (timeout : Nat) (given : Int) :
    ∀ (fuel : Nat) (w : World) (b : Bool) (w' : World),
      spin env i timeout given fuel w = some (b, w') →
      (b = true → ∃ v : World, (v.priority_lock i given).1 = true ∧ w' = (v.priority_lock i given).2) ∧
      (b = false → timeout ≤ w'.now ∧
        ∃ v : World, w' = (v.sleep_for env SPIN_WAIT_DELTA).emit Event.spin_wait) := by
  intro fuel
  induction fuel with
  | zero => intro w b w' h; simp [spin] at h
  | succ n ih =>
    intro w b w' h
    unfold spin at h
    simp only at h
    split at h
    · next h1 =>
      simp only [Option.some.injEq, Prod.mk.injEq] at h
      refine ⟨fun _ => ⟨w, h1, h.2.symm⟩, fun hb => ?_⟩
      rw [← h.1] at hb
      exact absurd hb (by simp)
    · split at h
      · next h2 =>
        simp only [Option.some.injEq, Prod.mk.injEq] at h
        refine ⟨fun hb => ?_, fun _ => ?_⟩
        · rw [← h.1] at hb
          exact absurd hb (by simp)
        · rw [← h.2]
          exact ⟨h2, _, rfl⟩
      · exact ih _ _ _ h

theorem spin_log (env : Env) (i : Int) (timeout : Nat) (given : Int)
    (fuel : Nat) (w : World) (b : Bool) (w' : World)
    (h : spin env i timeout given fuel w = some (b, w')) :
    ∃ evs, w'.log = evs ++ w.log ∧ ∀ e ∈ evs, e.isSpin = true := by
  refine spin_induct env i timeout given
    (fun a c => ∃ evs, c.log = evs ++ a.log ∧ ∀ e ∈ evs, e.isSpin = true)
    ?_ ?_ ?_ fuel w b w' h
  · intro v
    exact ⟨[Event.reserve i (v.priority_lock i given).1], rfl, by simp [Event.isSpin]⟩
  · intro v
    exact ⟨[Event.spin_wait], rfl, by simp [Event.isSpin]⟩
  · rintro a c d ⟨e1, h1, h1'⟩ ⟨e2, h2, h2'⟩
    refine ⟨e2 ++ e1, by rw [h2, h1, List.append_assoc], ?_⟩
    intro e he
    rcases List.mem_append.1 he with he | he
    · exact h2' e he
    · exact h1' e he

theorem spin_deaths (env : Env) (i : Int) (timeout : Nat) (given : Int)
    (fuel : Nat) (w : World) (b : Bool) (w' : World)
    (h : spin env i timeout given fuel w = some (b, w')) : w'.deaths = w.deaths := by
  refine spin_induct env i timeout given (fun a c => c.deaths = a.deaths)
    ?_ ?_ ?_ fuel w b w' h
  · intro v; rfl
  · intro v; rfl
  · intro a c d h1 h2
    exact h2.trans h1

theorem suspend_holds (env : Env) (tid : Int) (hres : env.Respects tid) (w : World) (j : Int) :
    (w.suspend env).Holds tid j ↔ w.Holds tid j :=
  hres w.step w.sticks j

theorem priority_lock_owner (w : World) (i given j : Int) :
    (((w.priority_lock i given).2).sticks j).owner = (w.sticks j).owner := by
  unfold World.priority_lock World.emit World.setStick
  simp only
  by_cases hj : j = i
  · subst hj
    rw [Function.update_same]
    exact priority_lock_keeps_owner (w.sticks j) given
  · rw [Function.update_noteq hj]

theorem spin_holds (env : Env) (tid : Int) (hres : env.Respects tid)
    (i : Int) (timeout : Nat) (given : Int)
    (fuel : Nat) (w : World) (b : Bool) (w' : World)
    (h : spin env i timeout given fuel w = some (b, w')) (j : Int) :
    w'.Holds tid j ↔ w.Holds tid j := by
  refine spin_induct env i timeout given (fun a c => c.Holds tid j ↔ a.Holds tid j)
    ?_ ?_ ?_ fuel w b w' h
  · intro v
    unfold World.Holds
    rw [priority_lock_owner]
  · intro v
    exact suspend_holds env tid hres v j
  · intro a c d h1 h2
    exact h2.trans h1


/-! ## try_lock_until and pickup -/

theorem isSpin_isInner (e : Event) (h : e.isSpin = true) : e.isInner = true := by
  cases e <;> simp_all [Event.isSpin, Event.isInner]

theorem try_lock_until_log (env : Env) (tid i : Int) (timeout : Nat) (w : World) :
    (w.try_lock_until env tid i timeout).2.log =
      Event.try_lock_until i (w.try_lock_until env tid i timeout).1 :: w.log := by
  unfold World.try_lock_until
  simp only
  split <;> rfl

theorem try_lock_until_deaths (env : Env) (tid i : Int) (timeout : Nat) (w : World) :
    (w.try_lock_until env tid i timeout).2.deaths = w.deaths := by
  unfold World.try_lock_until
  simp only
  split <;> rfl

/-- What `try_lock_until` returns and leaves: true with the mutex owned by
the caller when the mutex is free after the wait, false with the sticks as
the others left them when it is not. -/
theorem try_lock_until_spec (env : Env) (tid i : Int) (timeout : Nat) (w : World) :
    ((w.try_lock_until env tid i timeout).1 = true ↔ ((w.suspend env).sticks i).owner = none) ∧
    ((w.try_lock_until env tid i timeout).1 = true →
      (w.try_lock_until env tid i timeout).2.sticks =
        Function.update (w.suspend env).sticks i
          { (w.suspend env).sticks i with owner := some tid }) ∧
    ((w.try_lock_until env tid i timeout).1 = false →
      (w.try_lock_until env tid i timeout).2.sticks = (w.suspend env).sticks) := by
  unfold World.try_lock_until Stick.try_lock
  by_cases h : ((w.suspend env).sticks i).owner = none
  · simp [h, World.emit, World.setStick]
  · simp [h, World.emit]

theorem try_lock_until_holds (env : Env) (tid : Int) (hres : env.Respects tid)
    (i : Int) (timeout : Nat) (w : World) (j : Int) :
    (w.try_lock_until env tid i timeout).2.Holds tid j ↔
      (((w.try_lock_until env tid i timeout).1 = true ∧ j = i) ∨ w.Holds tid j) := by
  have hs := try_lock_until_spec env tid i timeout w
  have hsus := suspend_holds env tid hres w
  unfold World.Holds at hsus ⊢
  by_cases hb : (w.try_lock_until env tid i timeout).1 = true
  · rw [hs.2.1 hb]
    by_cases hj : j = i
    · subst hj
      simp [hb]
    · rw [Function.update_noteq hj, hsus j]
      simp [hj]
  · have hb' : (w.try_lock_until env tid i timeout).1 = false := by simpa using hb
    rw [hs.2.2 hb', hsus j]
    simp [hb']

theorem priority_unlock_owner (w : World) (i j : Int) :
    ((w.priority_unlock i).sticks j).owner = (w.sticks j).owner := by
  unfold World.priority_unlock World.emit World.setStick Stick.priority_unlock
  simp only
  by_cases hj : j = i
  · subst hj
    rw [Function.update_same]
  · rw [Function.update_noteq hj]

theorem priority_unlock_slot (w : World) (i : Int) :
    ((w.priority_unlock i).sticks i).priority = PRIORITY_NONE := by
  unfold World.priority_unlock World.emit World.setStick Stick.priority_unlock
  simp

theorem pickup_total (env : Env) (tid i : Int) (timeout : Nat) (given : Int) (w : World) :
    ∃ r, pickup env tid i timeout given w = some r := by
  obtain ⟨⟨b, w1⟩, hr⟩ := spin_total env i timeout given (timeout - w.now + 1)
    (w.emit (Event.pickup i given)) (by simp only [World.emit]; omega)
  unfold pickup
  simp only [World.emit] at hr ⊢
  rw [hr]
  cases b <;> simp

theorem pickup_cases (env : Env) (tid i : Int) (timeout : Nat) (given : Int) (w : World)
    (b : Bool) (w' : World) (h : pickup env tid i timeout given w = some (b, w')) :
    (∃ w1, spin env i timeout given (timeout - w.now + 1) (w.emit (Event.pickup i given))
        = some (false, w1) ∧ b = false ∧ w' = w1.emit (Event.result i false)) ∨
    (∃ w1, spin env i timeout given (timeout - w.now + 1) (w.emit (Event.pickup i given))
        = some (true, w1) ∧ b = (w1.try_lock_until env tid i timeout).1 ∧
        w' = ((w1.try_lock_until env tid i timeout).2.priority_unlock i).emit
          (Event.result i b)) := by
  unfold pickup at h
  simp only [World.emit] at h ⊢
  split at h
  · simp at h
  · next w1 hs =>
    simp only [Option.some.injEq, Prod.mk.injEq] at h
    exact Or.inl ⟨w1, hs, h.1.symm, h.2.symm⟩
  · next w1 hs =>
    simp only [Option.some.injEq, Prod.mk.injEq] at h
    refine Or.inr ⟨w1, hs, h.1.symm, ?_⟩
    rw [← h.2, ← h.1]

theorem pickup_deaths (env : Env) (tid i : Int) (timeout : Nat) (given : Int) (w : World)
    (b : Bool) (w' : World) (h : pickup env tid i timeout given w = some (b, w')) :
    w'.deaths = w.deaths := by
  rcases pickup_cases env tid i timeout given w b w' h with ⟨w1, hs, -, hw⟩ | ⟨w1, hs, -, hw⟩
  · rw [hw]
    have h1 := spin_deaths _ _ _ _ _ _ _ _ hs
    simp only [World.emit] at h1 ⊢
    exact h1
  · rw [hw]
    have h1 := spin_deaths _ _ _ _ _ _ _ _ hs
    have h2 := try_lock_until_deaths env tid i timeout w1
    simp only [World.emit, World.priority_unlock, World.setStick] at h1 ⊢
    rw [h2, h1]

theorem pickup_log (env : Env) (tid i : Int) (timeout : Nat) (given : Int) (w : World)
    (b : Bool) (w' : World) (h : pickup env tid i timeout given w = some (b, w')) :
    ∃ evs, w'.log = evs ++ Event.pickup i given :: w.log ∧ ∀ e ∈ evs, e.isInner = true := by
  rcases pickup_cases env tid i timeout given w b w' h with ⟨w1, hs, -, hw⟩ | ⟨w1, hs, -, hw⟩
  · obtain ⟨evs, h1, h2⟩ := spin_log _ _ _ _ _ _ _ _ hs
    refine ⟨Event.result i false :: evs, ?_, ?_⟩
    · rw [hw]
      simp only [World.emit] at h1 ⊢
      rw [h1]
      rfl
    · intro e he
      rcases List.mem_cons.1 he with he | he
      · rw [he]; rfl
      · exact isSpin_isInner e (h2 e he)
  · obtain ⟨evs, h1, h2⟩ := spin_log _ _ _ _ _ _ _ _ hs
    refine ⟨Event.result i b :: Event.priority_unlock i ::
      Event.try_lock_until i (w1.try_lock_until env tid i timeout).1 :: evs, ?_, ?_⟩
    · rw [hw]
      have h3 := try_lock_until_log env tid i timeout w1
      simp only [World.emit, World.priority_unlock, World.setStick] at h1 h3 ⊢
      rw [h3, h1]
      rfl
    · intro e he
      simp only [List.mem_cons] at he
      rcases he with he | he | he | he
      · rw [he]; rfl
      · rw [he]; rfl
      · rw [he]; rfl
      · exact isSpin_isInner e (h2 e he)

theorem pickup_holds (env : Env) (tid : Int) (hres : env.Respects tid)
    (i : Int) (timeout : Nat) (given : Int) (w : World)
    (b : Bool) (w' : World) (h : pickup env tid i timeout given w = some (b, w')) (j : Int) :
    w'.Holds tid j ↔ ((b = true ∧ j = i) ∨ w.Holds tid j) := by
  rcases pickup_cases env tid i timeout given w b w' h with ⟨w1, hs, hb, hw⟩ | ⟨w1, hs, hb, hw⟩
  · have h1 := spin_holds env tid hres _ _ _ _ _ _ _ hs j
    rw [hw, hb]
    unfold World.Holds at h1 ⊢
    simp only [World.emit] at h1 ⊢
    rw [h1]
    simp
  · have h1 := spin_holds env tid hres _ _ _ _ _ _ _ hs j
    have h2 := try_lock_until_holds env tid hres i timeout w1 j
    rw [hw, hb]
    unfold World.Holds at h1 h2 ⊢
    simp only [World.emit] at h1 h2 ⊢
    rw [priority_unlock_owner, h2, h1]


/-! ## The two ways through pickup -/

/-- C4: in every call of `pickup` in which the spin loop is left with the
reservation, `pickup` returns what the timed attempt on the mutex returned:
true exactly when the mutex was free at the end of the wait, and then the
caller owns it on return; false otherwise, and then the mutex is as the
others left it.  In both cases the priority slot is none on return. -/
theorem pickup_reserved (env : Env) (tid i : Int) (timeout : Nat) (given : Int)
    (w w1 : World)
    (hres : spin env i timeout given (timeout - w.now + 1) (w.emit (Event.pickup i given))
      = some (true, w1)) :
    ∃ w', pickup env tid i timeout given w
        = some ((w1.try_lock_until env tid i timeout).1, w') ∧
      (w1.sticks i).priority = given ∧
      (w'.sticks i).priority = PRIORITY_NONE ∧
      ((w1.try_lock_until env tid i timeout).1 = true ↔
        ((w1.suspend env).sticks i).owner = none) ∧
      ((w1.try_lock_until env tid i timeout).1 = true → (w'.sticks i).owner = some tid) ∧
      ((w1.try_lock_until env tid i timeout).1 = false →
        (w'.sticks i).owner = ((w1.suspend env).sticks i).owner) ∧
      w'.log = Event.result i (w1.try_lock_until env tid i timeout).1 ::
        Event.priority_unlock i ::
        Event.try_lock_until i (w1.try_lock_until env tid i timeout).1 :: w1.log := by
  have hs := try_lock_until_spec env tid i timeout w1
  refine ⟨((w1.try_lock_until env tid i timeout).2.priority_unlock i).emit
    (Event.result i (w1.try_lock_until env tid i timeout).1), ?_, ?_, ?_, hs.1, ?_, ?_, ?_⟩
  · unfold pickup
    simp only [World.emit] at hres ⊢
    rw [hres]
  · obtain ⟨v, hv1, hv2⟩ := (spin_exit env i timeout given _ _ _ _ hres).1 rfl
    rw [hv2]
    unfold World.priority_lock World.emit World.setStick
    simp only [Function.update_same]
    exact priority_lock_slot (v.sticks i) given hv1
  · exact priority_unlock_slot _ i
  · intro hb
    show ((((w1.try_lock_until env tid i timeout).2.priority_unlock i)).sticks i).owner = some tid
    rw [priority_unlock_owner, hs.2.1 hb, Function.update_same]
  · intro hb
    show ((((w1.try_lock_until env tid i timeout).2.priority_unlock i)).sticks i).owner = _
    rw [priority_unlock_owner, hs.2.2 hb]
  · show Event.result i _ :: ((w1.try_lock_until env tid i timeout).2.priority_unlock i).log = _
    have h3 := try_lock_until_log env tid i timeout w1
    simp only [World.priority_unlock, World.emit, World.setStick] at h3 ⊢
    rw [h3]

/-- A call on a fresh stick with nothing else running: the first
`priority_lock` makes the reservation. -/
theorem pickup_reserved_witness :
    ∃ w', pickup Env.quiet 0 0 5 PRIORITY_LEFT World.init
        = some (((((World.init.emit (Event.pickup 0 PRIORITY_LEFT)).priority_lock 0
            PRIORITY_LEFT).2).try_lock_until Env.quiet 0 0 5).1, w') ∧
      (w'.sticks 0).priority = PRIORITY_NONE ∧ (w'.sticks 0).owner = some 0 := by
  obtain ⟨w', h1, -, h3, -, h5, -, -⟩ :=
    pickup_reserved Env.quiet 0 0 5 PRIORITY_LEFT World.init
      ((World.init.emit (Event.pickup 0 PRIORITY_LEFT)).priority_lock 0 PRIORITY_LEFT).2 rfl
  exact ⟨w', h1, h3, h5 rfl⟩

theorem alone_succ (env : Env) (n k : Nat) (σ : Int → Stick) :
    env.alone (n + 1) k σ = env.others (k + n) (env.alone n k σ) := by
  induction n generalizing k σ with
  | zero => simp [Env.alone]
  | succ m ih =>
    rw [Env.alone, ih (k + 1) (env.others k σ), Env.alone]
    have : k + 1 + m = k + (m + 1) := by omega
    rw [this]

theorem attempts_append (l1 l2 : List Event) : attempts (l1 ++ l2) = attempts l2 ++ attempts l1 := by
  simp [attempts, List.reverse_append, List.filterMap_append]

theorem attempts_inner (evs : List Event) (h : ∀ e ∈ evs, e.isInner = true) :
    attempts evs = [] := by
  unfold attempts
  rw [List.filterMap_eq_nil_iff]
  intro e he
  have := h e (List.mem_reverse.1 he)
  cases e <;> simp_all [Event.isInner]

theorem count_inner (evs : List Event) (h : ∀ e ∈ evs, e.isInner = true) (e : Event)
    (he : e.isOuter = true) : evs.count e = 0 := by
  apply List.count_eq_zero_of_not_mem
  intro hmem
  have := h e hmem
  cases e <;> simp_all [Event.isInner, Event.isOuter]

theorem failures_spin (evs : List Event) (h : ∀ e ∈ evs, e.isSpin = true) :
    failures evs = 0 := by
  unfold failures
  rw [List.countP_eq_zero]
  intro e he
  have := h e he
  cases e <;> simp_all [Event.isSpin, Event.isFailure]

theorem failures_append (l1 l2 : List Event) :
    failures (l1 ++ l2) = failures l1 + failures l2 := by
  simp [failures, List.countP_append]

theorem pickup_attempts (env : Env) (tid i : Int) (timeout : Nat) (given : Int) (w : World)
    (b : Bool) (w' : World) (h : pickup env tid i timeout given w = some (b, w')) :
    attempts w'.log = attempts w.log ++ [(i, given)] := by
  obtain ⟨evs, h1, h2⟩ := pickup_log env tid i timeout given w b w' h
  rw [h1, attempts_append, attempts_inner evs h2]
  have : Event.pickup i given :: w.log = [Event.pickup i given] ++ w.log := rfl
  rw [this, attempts_append]
  simp [attempts]

theorem pickup_count (env : Env) (tid i : Int) (timeout : Nat) (given : Int) (w : World)
    (b : Bool) (w' : World) (h : pickup env tid i timeout given w = some (b, w'))
    (e : Event) (he : e.isOuter = true) : w'.log.count e = w.log.count e := by
  obtain ⟨evs, h1, h2⟩ := pickup_log env tid i timeout given w b w' h
  rw [h1, List.count_append, count_inner evs h2 e he]
  have hne : (Event.pickup i given == e) = false := by
    cases e <;> simp_all [Event.isOuter]
  rw [List.count_cons, hne]
  simp

theorem pickup_failures (env : Env) (tid i : Int) (timeout : Nat) (given : Int) (w : World)
    (b : Bool) (w' : World) (h : pickup env tid i timeout given w = some (b, w')) :
    failures w'.log = failures w.log + (if b = true then 0 else 1) := by
  rcases pickup_cases env tid i timeout given w b w' h with ⟨w1, hs, hb, hw⟩ | ⟨w1, hs, hb, hw⟩
  · obtain ⟨evs, h1, h2⟩ := spin_log _ _ _ _ _ _ _ _ hs
    have hf := failures_spin evs h2
    rw [hw, hb]
    simp only [World.emit] at h1 ⊢
    rw [h1]
    have : Event.result i false :: (evs ++ Event.pickup i given :: w.log)
        = [Event.result i false] ++ evs ++ [Event.pickup i given] ++ w.log := by simp
    rw [this]
    simp only [failures_append, hf]
    simp [failures, Event.isFailure]
    omega
  · obtain ⟨evs, h1, h2⟩ := spin_log _ _ _ _ _ _ _ _ hs
    have hf := failures_spin evs h2
    have h3 := try_lock_until_log env tid i timeout w1
    rw [hw]
    simp only [World.emit, World.priority_unlock, World.setStick] at h1 h3 ⊢
    rw [h3, h1]
    have : Event.result i b :: Event.priority_unlock i ::
        Event.try_lock_until i (w1.try_lock_until env tid i timeout).1 ::
          (evs ++ Event.pickup i given :: w.log)
        = [Event.result i b] ++ [Event.priority_unlock i,
            Event.try_lock_until i (w1.try_lock_until env tid i timeout).1] ++ evs ++
            [Event.pickup i given] ++ w.log := by simp
    rw [this]
    simp only [failures_append, hf]
    cases b
    · simp [failures, Event.isFailure]
      omega
    · simp [failures, Event.isFailure]


/-! ## pickup_left, pickup_right and the acquisitions of eat -/

theorem setTracker_owner (w : World) (i : Int) (f : StickTracker → StickTracker) (j : Int) :
    ((w.setTracker i f).sticks j).owner = (w.sticks j).owner := by
  unfold World.setTracker World.setStick
  simp only
  by_cases hj : j = i
  · subst hj
    rw [Function.update_same]
  · rw [Function.update_noteq hj]

/-- What a call of `pickup` followed by the store into the tracker leaves. -/
theorem pickup_post (env : Env) (tid i : Int) (timeout : Nat) (given : Int)
    (f : StickTracker → StickTracker) (w : World) (b : Bool) (w1 : World)
    (h : pickup env tid i timeout given w = some (b, w1)) (w' : World)
    (hw : w' = if b = true then w1.setTracker i f else w1) :
    w'.deaths = w.deaths ∧
    attempts w'.log = attempts w.log ++ [(i, given)] ∧
    (∀ e : Event, e.isOuter = true → w'.log.count e = w.log.count e) ∧
    failures w'.log = failures w.log + (if b = true then 0 else 1) ∧
    (env.Respects tid → ∀ j, w'.Holds tid j ↔ ((b = true ∧ j = i) ∨ w.Holds tid j)) := by
  have hlog : w'.log = w1.log := by
    rw [hw]; split <;> rfl
  have hd : w'.deaths = w1.deaths := by
    rw [hw]; split <;> rfl
  have ho : ∀ j, (w'.sticks j).owner = (w1.sticks j).owner := by
    intro j
    rw [hw]
    split
    · exact setTracker_owner w1 i f j
    · rfl
  refine ⟨?_, ?_, ?_, ?_, ?_⟩
  · rw [hd]; exact pickup_deaths env tid i timeout given w b w1 h
  · rw [hlog]; exact pickup_attempts env tid i timeout given w b w1 h
  · intro e he
    rw [hlog]; exact pickup_count env tid i timeout given w b w1 h e he
  · rw [hlog]; exact pickup_failures env tid i timeout given w b w1 h
  · intro hres j
    have := pickup_holds env tid hres i timeout given w b w1 h j
    unfold World.Holds at this ⊢
    rw [ho j]
    exact this

theorem pickup_right_total (env : Env) (tid i : Int) (timeout : Nat) (w : World) :
    ∃ r, pickup_right env tid i timeout w = some r := by
  obtain ⟨⟨b, w1⟩, h⟩ := pickup_total env tid i timeout PRIORITY_RIGHT w
  unfold pickup_right
  rw [h]
  exact ⟨_, rfl⟩

theorem pickup_left_total (env : Env) (tid i : Int) (timeout : Nat) (w : World) :
    ∃ r, pickup_left env tid i timeout w = some r := by
  obtain ⟨⟨b, w1⟩, h⟩ := pickup_total env tid i timeout PRIORITY_LEFT w
  unfold pickup_left
  rw [h]
  exact ⟨_, rfl⟩

theorem pickup_right_post (env : Env) (tid i : Int) (timeout : Nat) (w : World)
    (b : Bool) (w' : World) (h : pickup_right env tid i timeout w = some (b, w')) :
    w'.deaths = w.deaths ∧
    attempts w'.log = attempts w.log ++ [(i, PRIORITY_RIGHT)] ∧
    (∀ e : Event, e.isOuter = true → w'.log.count e = w.log.count e) ∧
    failures w'.log = failures w.log + (if b = true then 0 else 1) ∧
    (env.Respects tid → ∀ j, w'.Holds tid j ↔ ((b = true ∧ j = i) ∨ w.Holds tid j)) := by
  unfold pickup_right at h
  split at h
  · simp at h
  · next succ w1 hp =>
    simp only [Option.some.injEq, Prod.mk.injEq] at h
    obtain ⟨hb, hw⟩ := h
    subst hb
    exact pickup_post env tid i timeout PRIORITY_RIGHT StickTracker.set_left w succ w1 hp w'
      (by rw [← hw])

theorem pickup_left_post (env : Env) (tid i : Int) (timeout : Nat) (w : World)
    (b : Bool) (w' : World) (h : pickup_left env tid i timeout w = some (b, w')) :
    w'.deaths = w.deaths ∧
    attempts w'.log = attempts w.log ++ [(i, PRIORITY_LEFT)] ∧
    (∀ e : Event, e.isOuter = true → w'.log.count e = w.log.count e) ∧
    failures w'.log = failures w.log + (if b = true then 0 else 1) ∧
    (env.Respects tid → ∀ j, w'.Holds tid j ↔ ((b = true ∧ j = i) ∨ w.Holds tid j)) := by
  unfold pickup_left at h
  split at h
  · simp at h
  · next succ w1 hp =>
    simp only [Option.some.injEq, Prod.mk.injEq] at h
    obtain ⟨hb, hw⟩ := h
    subst hb
    exact pickup_post env tid i timeout PRIORITY_LEFT StickTracker.set_right w succ w1 hp w'
      (by rw [← hw])

theorem eat_pickups_total (env : Env) (p : Person) (sp : Nat) (w : World) :
    ∃ r, eat_pickups env p sp w = some r := by
  unfold eat_pickups
  split
  · obtain ⟨⟨b1, w1⟩, h1⟩ := pickup_left_total env p.id p.left sp w
    obtain ⟨⟨b2, w2⟩, h2⟩ := pickup_right_total env p.id p.right sp w1
    rw [h1]
    simp only
    rw [h2]
    exact ⟨_, rfl⟩
  · obtain ⟨⟨b1, w1⟩, h1⟩ := pickup_right_total env p.id p.right sp w
    obtain ⟨⟨b2, w2⟩, h2⟩ := pickup_left_total env p.id p.left sp w1
    rw [h1]
    simp only
    rw [h2]
    exact ⟨_, rfl⟩

/-- What the two acquisitions of `eat` leave. -/
theorem eat_pickups_post (env : Env) (p : Person) (sp : Nat) (w : World)
    (hl hr : Bool) (w2 : World) (h : eat_pickups env p sp w = some (hl, hr, w2)) :
    w2.deaths = w.deaths ∧
    attempts w2.log = attempts w.log ++
      (if p.id = 0 then [(p.left, PRIORITY_LEFT), (p.right, PRIORITY_RIGHT)]
       else [(p.right, PRIORITY_RIGHT), (p.left, PRIORITY_LEFT)]) ∧
    (∀ e : Event, e.isOuter = true → w2.log.count e = w.log.count e) ∧
    failures w2.log = failures w.log + (if hl = true then 0 else 1)
      + (if hr = true then 0 else 1) ∧
    (env.Respects p.id → ∀ j, w2.Holds p.id j ↔
      ((hl = true ∧ j = p.left) ∨ (hr = true ∧ j = p.right) ∨ w.Holds p.id j)) := by
  unfold eat_pickups at h
  split at h
  · next hid =>
    split at h
    · simp at h
    · next b1 w1 h1 =>
      split at h
      · simp at h
      · next b2 w2' h2 =>
        simp only [Option.some.injEq, Prod.mk.injEq] at h
        obtain ⟨e1, e2, e3⟩ := h
        subst e1 e2 e3
        obtain ⟨a1, a2, a3, a4, a5⟩ := pickup_left_post env p.id p.left sp w b1 w1 h1
        obtain ⟨c1, c2, c3, c4, c5⟩ := pickup_right_post env p.id p.right sp w1 b2 w2' h2
        refine ⟨c1.trans a1, ?_, ?_, ?_, ?_⟩
        · rw [c2, a2, if_pos hid]; simp
        · intro e he; rw [c3 e he, a3 e he]
        · rw [c4, a4]
        · intro hres j
          rw [c5 hres j, a5 hres j]
          tauto
  · next hid =>
    split at h
    · simp at h
    · next b1 w1 h1 =>
      split at h
      · simp at h
      · next b2 w2' h2 =>
        simp only [Option.some.injEq, Prod.mk.injEq] at h
        obtain ⟨e1, e2, e3⟩ := h
        subst e1 e2 e3
        obtain ⟨a1, a2, a3, a4, a5⟩ := pickup_right_post env p.id p.right sp w b1 w1 h1
        obtain ⟨c1, c2, c3, c4, c5⟩ := pickup_left_post env p.id p.left sp w1 b2 w2' h2
        refine ⟨c1.trans a1, ?_, ?_, ?_, ?_⟩
        · rw [c2, a2, if_neg hid]; simp
        · intro e he; rw [c3 e he, a3 e he]
        · rw [c4, a4]
          omega
        · intro hres j
          rw [c5 hres j, a5 hres j]


/-! ## The rest of eat -/

theorem drop_holds (w : World) (tid i j : Int) :
    (w.drop i).Holds tid j ↔ (j ≠ i ∧ w.Holds tid j) := by
  unfold World.Holds World.drop World.emit World.setStick
  simp only
  by_cases hj : j = i
  · subst hj
    rw [Function.update_same]
    simp [Stick.drop, Stick.unlock]
  · rw [Function.update_noteq hj]
    simp [hj]

theorem sleep_for_holds (env : Env) (tid : Int) (hres : env.Respects tid) (ms : Nat)
    (w : World) (j : Int) : (w.sleep_for env ms).Holds tid j ↔ w.Holds tid j :=
  suspend_holds env tid hres w j

/-- What the part of `eat` after the acquisitions does. -/
theorem eat_finish_post (env : Env) (p : Person) (time : Int) (hl hr : Bool) (w : World) :
    (eat_finish env p time hl hr w).1 =
      (if hl = true ∧ hr = true then p else { p with running := false }) ∧
    (eat_finish env p time hl hr w).2.deaths =
      (if hl = true ∧ hr = true then w.deaths else w.deaths + 1) ∧
    (eat_finish env p time hl hr w).2.log =
      (if hr = true then [Event.unlock p.right] else []) ++
      (if hl = true then [Event.unlock p.left] else []) ++
      (if hl = true ∧ hr = true then [Event.eating time]
       else [Event.deaths_inc, Event.starved p.id]) ++ w.log ∧
    (env.Respects p.id → ∀ j, (eat_finish env p time hl hr w).2.Holds p.id j ↔
      (w.Holds p.id j ∧ ¬(hl = true ∧ j = p.left) ∧ ¬(hr = true ∧ j = p.right))) := by
  refine ⟨?_, ?_, ?_, ?_⟩
  · cases hl <;> cases hr <;> simp [eat_finish]
  · cases hl <;> cases hr <;> simp [eat_finish, World.drop, World.emit, World.setStick,
      World.sleep_for, World.suspend]
  · cases hl <;> cases hr <;> simp [eat_finish, World.drop, World.emit, World.setStick,
      World.sleep_for, World.suspend]
  · intro hres j
    cases hl <;> cases hr
    · simp [eat_finish, World.Holds, World.emit]
    · simp only [eat_finish, Bool.false_and, Bool.false_eq_true, if_false, if_true]
      rw [drop_holds]
      simp [World.Holds, World.emit]
      tauto
    · simp only [eat_finish, Bool.true_and, Bool.false_eq_true, if_false, if_true]
      rw [drop_holds]
      simp [World.Holds, World.emit]
      tauto
    · simp only [eat_finish, Bool.true_and, if_true]
      rw [drop_holds, drop_holds]
      have := sleep_for_holds env p.id hres time.toNat w j
      simp only [World.Holds, World.emit] at this ⊢
      rw [this]
      simp
      tauto

theorem eat_total (env : Env) (p : Person) (time starve : Int) (w : World) :
    ∃ r, eat env p time starve w = some r := by
  obtain ⟨⟨hl, hr, w2⟩, h⟩ := eat_pickups_total env p (w.now + starve.toNat) w
  unfold eat
  simp only
  rw [h]
  exact ⟨_, rfl⟩

theorem eat_eq (env : Env) (p : Person) (time starve : Int) (w : World)
    (hl hr : Bool) (w2 : World)
    (h : eat_pickups env p (w.now + starve.toNat) w = some (hl, hr, w2)) :
    eat env p time starve w = some (eat_finish env p time hl hr w2) := by
  unfold eat
  simp only
  rw [h]


/-! ## Order of the acquisitions and the ring -/

theorem leftSlot_zero (N : Int) (hN : 2 ≤ N) (hmax : N ≤ 2147483647) :
    leftSlot 0 N = N - 1 := by
  unfold leftSlot
  rw [wrapInt32_of_range (0 - 1) (by omega) (by omega),
    wrapInt32_of_range (0 - 1 + N) (by omega) (by omega),
    Int.tmod_eq_emod (by omega) (by omega)]
  have h1 : (0 - 1 + N : Int) = N - 1 := by omega
  rw [h1]
  refine Int.emod_eq_of_lt ?_ ?_ <;> omega

/-- C2: `eat` of agent 0 enters `pickup` on its left stick first and on its
right stick second; `eat` of every other agent enters `pickup` on its right
stick first and on its left stick second.  For every table size `N ≥ 2` (an
`int`) the wiring gives agent 0 and agent `N - 1` the same first stick, ring
slot `N - 1`; so in no state of the sticks, where a mutex has one owner at
most, does every agent own the mutex of its first stick. -/
theorem asymmetric_order (N : Int) (hN : 2 ≤ N) (hmax : N ≤ 2147483647) :
    (∀ (env : Env) (p : Person) (time starve : Int) (w : World),
      ∃ r, eat env p time starve w = some r ∧
        attempts r.2.log = attempts w.log ++
          [(p.first, if p.id = 0 then PRIORITY_LEFT else PRIORITY_RIGHT),
           (p.second, if p.id = 0 then PRIORITY_RIGHT else PRIORITY_LEFT)]) ∧
    (∀ p : Person, (p.id = 0 → p.first = p.left ∧ p.second = p.right) ∧
      (p.id ≠ 0 → p.first = p.right ∧ p.second = p.left)) ∧
    (∃ p ∈ distribute N, p.id = 0 ∧ p.first = N - 1) ∧
    (∃ p ∈ distribute N, p.id = N - 1 ∧ p.first = N - 1) ∧
    (∀ σ : Int → Stick, ¬ ∀ p ∈ distribute N, (σ p.first).owner = some p.id) := by
  have h0 : ({ id := 0, left := leftSlot 0 N, right := 0, running := false } : Person)
      ∈ distribute N := (mem_distribute N _).2 ⟨0, by omega, rfl⟩
  have hl : ({ id := N - 1, left := leftSlot (N - 1) N, right := N - 1, running := false }
      : Person) ∈ distribute N := by
    refine (mem_distribute N _).2 ⟨(N - 1).toNat, by omega, ?_⟩
    have hc : (((N - 1).toNat : Nat) : Int) = N - 1 := Int.toNat_of_nonneg (by omega)
    rw [hc]
  have hf0 : ({ id := 0, left := leftSlot 0 N, right := 0, running := false }
      : Person).first = N - 1 := by
    simp [Person.first, leftSlot_zero N hN hmax]
  have hfl : ({ id := N - 1, left := leftSlot (N - 1) N, right := N - 1, running := false }
      : Person).first = N - 1 := by
    have : N - 1 ≠ 0 := by omega
    simp [Person.first, this]
  refine ⟨?_, ?_, ⟨_, h0, rfl, hf0⟩, ⟨_, hl, rfl, hfl⟩, ?_⟩
  · intro env p time starve w
    obtain ⟨⟨a, b, w2⟩, h⟩ := eat_pickups_total env p (w.now + starve.toNat) w
    refine ⟨_, eat_eq env p time starve w a b w2 h, ?_⟩
    have hp := (eat_pickups_post env p _ w a b w2 h).2.1
    have hfin := (eat_finish_post env p time a b w2).2.2.1
    rw [hfin, attempts_append, hp]
    have hnil : attempts ((if b = true then [Event.unlock p.right] else []) ++
        (if a = true then [Event.unlock p.left] else []) ++
        (if a = true ∧ b = true then [Event.eating time]
         else [Event.deaths_inc, Event.starved p.id])) = [] := by
      cases a <;> cases b <;> simp [attempts]
    rw [hnil]
    by_cases hid : p.id = 0 <;> simp [hid, Person.first, Person.second]
  · intro p
    constructor
    · intro h; simp [Person.first, Person.second, h]
    · intro h; simp [Person.first, Person.second, h]
  · intro σ hall
    have e0 := hall _ h0
    have el := hall _ hl
    rw [hf0] at e0
    rw [hfl] at el
    rw [e0] at el
    simp only [Option.some.injEq] at el
    omega

/-- At table size 2 both agents attempt ring slot 1 first. -/
theorem asymmetric_order_witness :
    (∃ p ∈ distribute 2, p.id = 0 ∧ p.first = 2 - 1) ∧
    (∃ p ∈ distribute 2, p.id = 2 - 1 ∧ p.first = 2 - 1) ∧
    (∀ σ : Int → Stick, ¬ ∀ p ∈ distribute 2, (σ p.first).owner = some p.id) :=
  (asymmetric_order 2 (by decide) (by decide)).2.2

/-! ## Conservation of the sticks in one eat cycle -/

theorem failures_cons (e : Event) (l : List Event) :
    failures (e :: l) = failures l + (if e.isFailure = true then 1 else 0) := by
  simp [failures, List.countP_cons]

/-- One `eat` cycle: the flag, the counter and the failed acquisitions. -/
theorem eat_post (env : Env) (p : Person) (time starve : Int) (w : World)
    (hl hr : Bool) (w2 : World)
    (h : eat_pickups env p (w.now + starve.toNat) w = some (hl, hr, w2)) :
    ∃ p' w', eat env p time starve w = some (p', w') ∧
      p' = (if hl = true ∧ hr = true then p else { p with running := false }) ∧
      w'.deaths = (if hl = true ∧ hr = true then w.deaths else w.deaths + 1) ∧
      failures w'.log = failures w.log + (if hl = true then 0 else 1)
        + (if hr = true then 0 else 1) := by
  obtain ⟨hd, -, -, hf, -⟩ := eat_pickups_post env p _ w hl hr w2 h
  obtain ⟨hp, hd2, hlog, -⟩ := eat_finish_post env p time hl hr w2
  refine ⟨(eat_finish env p time hl hr w2).1, (eat_finish env p time hl hr w2).2,
    eat_eq env p time starve w hl hr w2 h, hp, ?_, ?_⟩
  · rw [hd2, hd]
  · rw [hlog, failures_append, hf]
    cases hl <;> cases hr <;> simp [failures, Event.isFailure]

theorem run_stopped (env : Env) (fuel : Nat) (p : Person) (w : World)
    (h : p.running = false) : run env (fuel + 1) p w = some (p, w) := by
  unfold run
  simp [h]

/-- A whole `run`: the counter goes up by one exactly when an acquisition
failed, and then the flag is cleared. -/
theorem run_post (env : Env) :
    ∀ (fuel : Nat) (p : Person) (w : World) (p' : Person) (w' : World),
      run env fuel p w = some (p', w') →
      failures w.log ≤ failures w'.log ∧
      w'.deaths = w.deaths + (if failures w.log < failures w'.log then 1 else 0) ∧
      (failures w.log < failures w'.log → p'.running = false) := by
  intro fuel
  induction fuel with
  | zero => intro p w p' w' h; simp [run] at h
  | succ n ih =>
    intro p w p' w' h
    unfold run at h
    split at h
    · obtain ⟨⟨hl, hr, w2⟩, hacq⟩ :=
        eat_pickups_total env p (w.now + STARVATION_TIME.toNat) w
      obtain ⟨p1, w1, he, hp1, hd1, hf1⟩ :=
        eat_post env p EATING_TIME STARVATION_TIME w hl hr w2 hacq
      rw [he] at h
      simp only at h
      by_cases hboth : hl = true ∧ hr = true
      · obtain ⟨i1, i2, i3⟩ := ih _ _ _ _ h
        have hfT : failures ((w1.sleep_for env THINKING_TIME.toNat).emit
            (Event.thinking THINKING_TIME)).log = failures w.log := by
          show failures (Event.thinking THINKING_TIME :: w1.log) = _
          rw [failures_cons, hf1]
          simp [hboth.1, hboth.2, Event.isFailure]
        have hdT : ((w1.sleep_for env THINKING_TIME.toNat).emit
            (Event.thinking THINKING_TIME)).deaths = w.deaths := by
          show w1.deaths = _
          rw [hd1, if_pos hboth]
        rw [hfT] at i1 i2 i3
        rw [hdT] at i2
        exact ⟨i1, i2, i3⟩
      · have hrun : p1.running = false := by
          rw [hp1, if_neg hboth]
        have hfT : failures ((w1.sleep_for env THINKING_TIME.toNat).emit
            (Event.thinking THINKING_TIME)).log = failures w1.log := by
          show failures (Event.thinking THINKING_TIME :: w1.log) = _
          rw [failures_cons]
          simp [Event.isFailure]
        have hlt : failures w.log < failures w1.log := by
          rw [hf1]
          cases hl <;> cases hr <;> simp at hboth ⊢
          all_goals omega
        cases n with
        | zero => simp [run] at h
        | succ m =>
          rw [run_stopped env m p1 _ hrun] at h
          simp only [Option.some.injEq, Prod.mk.injEq] at h
          obtain ⟨e1, e2⟩ := h
          subst e1 e2
          rw [hfT]
          refine ⟨by omega, ?_, fun _ => hrun⟩
          rw [if_pos hlt]
          show w1.deaths = _
          rw [hd1, if_neg hboth]
    · simp only [Option.some.injEq, Prod.mk.injEq] at h
      obtain ⟨e1, e2⟩ := h
      subst e1 e2
      simp

theorem run_all_count :
    ∀ (jobs : List (Env × Nat × Person × World)) (d0 d : Int) (rs : List (Person × World)),
      run_all jobs d0 = some (d, rs) →
      d = d0 + (starvedCount rs : Int) ∧ rs.length = jobs.length := by
  intro jobs
  induction jobs with
  | nil =>
    intro d0 d rs h
    simp only [run_all, Option.some.injEq, Prod.mk.injEq] at h
    obtain ⟨e1, e2⟩ := h
    subst e1 e2
    simp [starvedCount]
  | cons job rest ih =>
    intro d0 d rs h
    obtain ⟨env, fuel, p, w⟩ := job
    unfold run_all at h
    split at h
    · simp at h
    · next p1 w1 hr =>
      split at h
      · simp at h
      · next d1 rs1 hrest =>
        simp only [Option.some.injEq, Prod.mk.injEq] at h
        obtain ⟨e1, e2⟩ := h
        subst e1 e2
        obtain ⟨i1, i2⟩ := ih _ _ _ hrest
        obtain ⟨-, j2, -⟩ := run_post env fuel p _ p1 w1 hr
        simp only [failures, List.countP_nil] at j2
        refine ⟨?_, by simp [i2]⟩
        rw [i1, j2]
        unfold starvedCount failures
        rw [List.countP_cons]
        by_cases hpos : 0 < List.countP Event.isFailure w1.log
        · simp [hpos]
          omega
        · simp [hpos]

/-- C7: in an `eat` cycle in which both acquisitions succeed the flag
`running` and the counter `deaths` are unchanged; in a cycle in which one
fails the flag is cleared and the counter goes up by exactly one, and `run`
ends after that cycle's think without another `eat`.  So over a whole `run`
the counter never goes down, goes up by at most one, and goes up by one
exactly when an acquisition of the agent failed; and when all agents have
finished, the counter, started at 0, is the number of agents that starved. -/
theorem starvation_accounting :
    (∀ (env : Env) (p : Person) (time starve : Int) (w : World) (hl hr : Bool) (w2 : World),
      eat_pickups env p (w.now + starve.toNat) w = some (hl, hr, w2) →
      ∃ p' w', eat env p time starve w = some (p', w') ∧
        (hl = true ∧ hr = true → p'.running = p.running ∧ w'.deaths = w.deaths) ∧
        (¬(hl = true ∧ hr = true) → p'.running = false ∧ w'.deaths = w.deaths + 1)) ∧
    (∀ (env : Env) (fuel : Nat) (p : Person) (w : World) (hl hr : Bool) (w2 : World),
      p.running = true → env.kill w.step = false →
      eat_pickups env p (w.now + STARVATION_TIME.toNat) w = some (hl, hr, w2) →
      ¬(hl = true ∧ hr = true) →
      ∃ p1 w1, eat env p EATING_TIME STARVATION_TIME w = some (p1, w1) ∧
        run env (fuel + 2) p w = some (p1,
          (w1.sleep_for env THINKING_TIME.toNat).emit (Event.thinking THINKING_TIME))) ∧
    (∀ (env : Env) (fuel : Nat) (p : Person) (w : World) (p' : Person) (w' : World),
      run env fuel p w = some (p', w') →
      w.deaths ≤ w'.deaths ∧ w'.deaths ≤ w.deaths + 1 ∧
      (w'.deaths = w.deaths + 1 ↔ failures w.log < failures w'.log) ∧
      (failures w.log < failures w'.log → p'.running = false)) ∧
    (∀ (jobs : List (Env × Nat × Person × World)) (d : Int) (rs : List (Person × World)),
      run_all jobs 0 = some (d, rs) →
      d = (starvedCount rs : Int) ∧ rs.length = jobs.length) := by
  refine ⟨?_, ?_, ?_, ?_⟩
  · intro env p time starve w hl hr w2 h
    obtain ⟨p', w', he, hp, hd, -⟩ := eat_post env p time starve w hl hr w2 h
    refine ⟨p', w', he, ?_, ?_⟩
    · intro hb
      rw [hp, hd, if_pos hb, if_pos hb]
      exact ⟨rfl, rfl⟩
    · intro hb
      rw [hp, hd, if_neg hb, if_neg hb]
      exact ⟨rfl, rfl⟩
  · intro env fuel p w hl hr w2 hrun hkill h hb
    obtain ⟨p1, w1, he, hp, -, -⟩ := eat_post env p EATING_TIME STARVATION_TIME w hl hr w2 h
    refine ⟨p1, w1, he, ?_⟩
    have hstop : p1.running = false := by rw [hp, if_neg hb]
    rw [run]
    simp only [hrun, hkill, Bool.not_false, Bool.and_self, if_true, he]
    exact run_stopped env fuel p1 _ hstop
  · intro env fuel p w p' w' h
    obtain ⟨h1, h2, h3⟩ := run_post env fuel p w p' w' h
    by_cases hlt : failures w.log < failures w'.log
    · rw [if_pos hlt] at h2
      refine ⟨by omega, by omega, ⟨fun _ => hlt, fun _ => h2⟩, h3⟩
    · rw [if_neg hlt] at h2
      refine ⟨by omega, by omega, ⟨fun h4 => ?_, fun h4 => absurd h4 hlt⟩, h3⟩
      omega
  · intro jobs d rs h
    obtain ⟨h1, h2⟩ := run_all_count jobs 0 d rs h
    exact ⟨by omega, h2⟩

/-- Two agents: agent 1 finds its left stick taken and starves in its first
cycle; agent 0 eats once and is then stopped by `kill()`.  The counter ends
at 1. -/
theorem starvation_accounting_witness :
    ∃ rs, run_all sampleJobs 0 = some (1, rs) ∧
      (1 : Int) = (starvedCount rs : Int) ∧ rs.length = sampleJobs.length := by
  refine ⟨_, rfl, ?_⟩
  exact starvation_accounting.2.2.2 sampleJobs 1 _ rfl


/-! ## Two-sided fairness -/

theorem reachable_run (sched : List (Side × Bool)) :
    ∀ s : Sys, Reachable s → Reachable (s.run sched) := by
  induction sched with
  | nil => intro s h; exact h
  | cons a rest ih =>
    intro s h
    obtain ⟨side, late⟩ := a
    exact ih _ (Reachable.step s side late h)

/-- The slot names a side exactly while that side is between leaving the
spin loop and `priority_unlock`; this is kept by every step. -/
theorem reserved_step (s : Sys) (side : Side) (late : Bool)
    (h : ∀ y : Side, (s.pc y).reserved = true ↔ s.stick.priority = y.code) :
    ∀ y : Side, ((s.step side late).pc y).reserved = true ↔
      (s.step side late).stick.priority = y.code := by
  rcases s with ⟨⟨o, p, t⟩, pl, pr⟩
  have hL : pl.reserved = true ↔ p = 1 := h .left
  have hR : pr.reserved = true ↔ p = 2 := h .right
  clear h
  intro y
  cases side
  · cases pl <;> cases y <;>
      simp only [Sys.step, Sys.pc, Sys.setPc, Side.code, PRIORITY_LEFT, PRIORITY_RIGHT,
        PRIORITY_NONE, Stick.compare_exchange_strong, Stick.try_lock, Stick.priority_unlock,
        Stick.unlock] <;>
      (try split_ifs) <;> simp_all [Pc.reserved, Sys.pc, Sys.setPc]
  · cases pr <;> cases y <;>
      simp only [Sys.step, Sys.pc, Sys.setPc, Side.code, PRIORITY_LEFT, PRIORITY_RIGHT,
        PRIORITY_NONE, Stick.compare_exchange_strong, Stick.try_lock, Stick.priority_unlock,
        Stick.unlock] <;>
      (try split_ifs) <;> simp_all [Pc.reserved, Sys.pc, Sys.setPc]

theorem reserved_inv (s : Sys) (hs : Reachable s) :
    ∀ y : Side, (s.pc y).reserved = true ↔ s.stick.priority = y.code := by
  induction hs with
  | init => intro y; cases y <;> decide
  | step s side late _ ih => exact reserved_step s side late ih

theorem step_pc_other (s : Sys) (a : Side) (late : Bool) :
    (s.step a.other late).pc a = s.pc a := by
  rcases s with ⟨st, pl, pr⟩
  cases a
  · cases pr <;> simp only [Sys.step, Sys.pc, Sys.setPc, Side.other] <;> (try split_ifs) <;> rfl
  · cases pl <;> simp only [Sys.step, Sys.pc, Sys.setPc, Side.other] <;> (try split_ifs) <;> rfl

theorem code_other_ne (a : Side) : a.other.code ≠ a.code := by
  cases a <;> decide

theorem waiting_step (s : Sys) (a : Side) (late : Bool) (h : s.pc a = .waiting) :
    ((s.step a late).pc a = .waiting ∧ s.step a late = s ∧ late = false ∧
      s.stick.owner ≠ none) ∨
    ((s.step a late).pc a = .unreserve true ∧ late = false ∧ s.stick.owner = none ∧
      (s.step a late).stick.owner = some a.code) ∨
    ((s.step a late).pc a = .unreserve false ∧ late = true ∧
      (s.step a late).stick = s.stick) := by
  rcases s with ⟨⟨o, p, t⟩, pl, pr⟩
  cases a
  · simp only [Sys.pc] at h
    subst h
    cases late <;> cases o <;> simp [Sys.step, Sys.pc, Sys.setPc, Stick.try_lock]
  · simp only [Sys.pc] at h
    subst h
    cases late <;> cases o <;> simp [Sys.step, Sys.pc, Sys.setPc, Stick.try_lock]

/-- C10: in every state the two threads sharing a stick can reach, by any
interleaving of their atomic steps, a side that is in `try_lock_until` is
the side recorded in the priority slot, so the two sides are never both
waiting on the mutex.  While side A holds the reservation (from leaving the
spin loop to its `priority_unlock`) side B holds none, and no step of B,
a release of the mutex and a new reservation attempt included, gives B the
reservation or changes the slot or moves A.  A leaves `try_lock_until` only
by its own step, with the mutex, which was free, or because its deadline has
passed. -/
theorem two_side_fairness (s : Sys) (hs : Reachable s) :
    (∀ a : Side, s.pc a = .waiting → s.stick.priority = a.code) ∧
    ¬(s.pc .left = .waiting ∧ s.pc .right = .waiting) ∧
    (∀ a : Side, (s.pc a).reserved = true →
      (s.pc a.other).reserved = false ∧
      ∀ late : Bool, ((s.step a.other late).pc a.other).reserved = false ∧
        (s.step a.other late).stick.priority = a.code ∧
        (s.step a.other late).pc a = s.pc a) ∧
    (∀ (a : Side) (sched : List (Side × Bool)), ((s.run sched).pc a).reserved = true →
      ((s.run sched).pc a.other).reserved = false ∧ (s.run sched).stick.priority = a.code) ∧
    (∀ (a : Side) (late : Bool), s.pc a = .waiting →
      ((s.step a late).pc a = .waiting ∧ s.step a late = s ∧ late = false ∧
        s.stick.owner ≠ none) ∨
      ((s.step a late).pc a = .unreserve true ∧ late = false ∧ s.stick.owner = none ∧
        (s.step a late).stick.owner = some a.code) ∨
      ((s.step a late).pc a = .unreserve false ∧ late = true ∧
        (s.step a late).stick = s.stick)) := by
  have key : ∀ t : Sys, Reachable t → ∀ a : Side, (t.pc a).reserved = true →
      (t.pc a.other).reserved = false ∧ t.stick.priority = a.code := by
    intro t ht a ha
    have h1 := (reserved_inv t ht a).1 ha
    refine ⟨?_, h1⟩
    by_contra hc
    have h2 := (reserved_inv t ht a.other).1 (by simpa using hc)
    rw [h1] at h2
    exact code_other_ne a h2.symm
  refine ⟨?_, ?_, ?_, ?_, ?_⟩
  · intro a ha
    exact (reserved_inv s hs a).1 (by rw [ha]; rfl)
  · rintro ⟨h1, h2⟩
    have := (key s hs .left (by rw [h1]; rfl)).1
    simp only [Side.other] at this
    rw [h2] at this
    simp [Pc.reserved] at this
  · intro a ha
    refine ⟨(key s hs a ha).1, fun late => ?_⟩
    have hpc := step_pc_other s a late
    have hr : ((s.step a.other late).pc a).reserved = true := by rw [hpc]; exact ha
    have := key _ (Reachable.step s a.other late hs) a hr
    exact ⟨this.1, this.2, hpc⟩
  · intro a sched ha
    exact key _ (reachable_run sched s hs) a ha
  · intro a late ha
    exact waiting_step s a late ha

/-- The right side holds the mutex and the left side waits for it with the
reservation: whatever the right side does next, the release of the mutex
included, it has no reservation after it and the slot still names the left
side. -/
theorem two_side_fairness_witness :
    (Sys.init.run sampleSchedule).pc .left = .waiting ∧
    (Sys.init.run sampleSchedule).pc .right = .holding ∧
    ∀ late : Bool,
      (((Sys.init.run sampleSchedule).step Side.left.other late).pc Side.left.other).reserved
        = false ∧
      ((Sys.init.run sampleSchedule).step Side.left.other late).stick.priority
        = Side.left.code ∧
      ((Sys.init.run sampleSchedule).step Side.left.other late).pc .left
        = (Sys.init.run sampleSchedule).pc .left :=
  ⟨by decide, by decide,
    ((two_side_fairness (Sys.init.run sampleSchedule)
      (reachable_run sampleSchedule Sys.init Reachable.init)).2.2.1 .left (by decide)).2⟩

end Phi

namespace Sieve

/-! ## The single sieve worker -/

theorem wrap64_of_lt (x : Nat) (h : x < 18446744073709551616) : wrap64 x = x :=
  Nat.mod_eq_of_lt h

theorem nextCandidate_spec (prime : Nat) (hle : prime ≤ SQRT_PRIME_RANGE)
    (hpar : prime = 0 ∨ prime = 2 ∨ (prime % 2 = 1 ∧ 3 ≤ prime)) :
    prime < nextCandidate prime ∧
    (nextCandidate prime = 2 ∨ (nextCandidate prime % 2 = 1 ∧ 3 ≤ nextCandidate prime)) ∧
    (∀ q : Nat, prime < q → q < nextCandidate prime → ¬Nat.Prime q) := by
  unfold SQRT_PRIME_RANGE at hle
  unfold nextCandidate
  rcases hpar with h | h | ⟨h1, h2⟩
  · subst h
    refine ⟨by simp, by simp, ?_⟩
    intro q h1 h2
    simp only [if_true] at h2
    have : q = 1 := by omega
    subst this
    exact Nat.not_prime_one
  · subst h
    refine ⟨by simp, by simp, ?_⟩
    intro q h1 h2
    simp at h2
    omega
  · have e1 : prime ≠ 0 := by omega
    have e2 : prime ≠ 2 := by omega
    rw [if_neg e1, if_neg e2, wrap64_of_lt _ (by omega)]
    refine ⟨by omega, Or.inr ⟨by omega, by omega⟩, ?_⟩
    intro q h3 h4 hq
    have hq1 : q = prime + 1 := by omega
    have h2q : 2 ∣ q := by omega
    have := (Nat.prime_dvd_prime_iff_eq Nat.prime_two hq).1 h2q
    omega

theorem findPrime_spec (R : Nat) (hR : SQRT_PRIME_RANGE ≤ R) (st : SieveState)
    (hmark : Marked R st.last_prime_found st.is_composite) :
    ∀ (fuel prime : Nat), SQRT_PRIME_RANGE + 2 ≤ fuel + prime →
      st.last_prime_found ≤ prime → prime ≤ SQRT_PRIME_RANGE →
      (prime = 0 ∨ prime = 2 ∨ (prime % 2 = 1 ∧ 3 ≤ prime)) →
      NoPrimeBetween st.last_prime_found prime →
      (∃ p : Nat, findPrime R fuel prime st = .ok (some p, { st with last_prime_found := p }) ∧
        Nat.Prime p ∧ prime < p ∧ p ≤ SQRT_PRIME_RANGE ∧ p < R ∧
        NoPrimeBetween st.last_prime_found (p - 1)) ∨
      (findPrime R fuel prime st = .ok (none, st) ∧
        NoPrimeBetween st.last_prime_found SQRT_PRIME_RANGE) := by
  intro fuel
  induction fuel with
  | zero => intro prime h1 _ h3; omega
  | succ n ih =>
    intro prime hfuel hlast hle hpar hno
    obtain ⟨hlt, hcpar, hgap⟩ := nextCandidate_spec prime hle hpar
    have hno' : NoPrimeBetween st.last_prime_found (nextCandidate prime - 1) := by
      intro q hq h1 h2
      by_cases h3 : q ≤ prime
      · exact hno q hq h1 h3
      · exact hgap q (by omega) (by omega) hq
    unfold findPrime
    simp only
    by_cases hS : nextCandidate prime > SQRT_PRIME_RANGE
    · right
      rw [if_pos hS]
      refine ⟨rfl, ?_⟩
      intro q hq h1 h2
      exact hno' q hq h1 (by omega)
    · rw [if_neg hS]
      have hcR : nextCandidate prime < R := by
        unfold SQRT_PRIME_RANGE at hS hR
        omega
      rw [if_neg (by omega)]
      have hc2 : 2 ≤ nextCandidate prime := by omega
      by_cases hbuf : st.is_composite (nextCandidate prime) = true
      · -- a marked candidate: go on
        have hnb : ¬((!st.is_composite (nextCandidate prime)) = true) := by simp [hbuf]
        rw [if_neg hnb]
        obtain ⟨q, hq, -, hqd, hqlt⟩ : ∃ q : Nat, Nat.Prime q ∧ q ≤ st.last_prime_found ∧
            q ∣ nextCandidate prime ∧ q < nextCandidate prime := by
          rcases (hmark _ hcR).1 hbuf with h | h
          · omega
          · exact h
        have hnp : ¬Nat.Prime (nextCandidate prime) := by
          intro hp
          have := (Nat.prime_dvd_prime_iff_eq hq hp).1 hqd
          omega
        have hno2 : NoPrimeBetween st.last_prime_found (nextCandidate prime) := by
          intro r hr h1 h2
          by_cases h3 : r = nextCandidate prime
          · subst h3; exact hnp hr
          · exact hno' r hr h1 (by omega)
        rcases ih (nextCandidate prime) (by omega) (by omega) (by omega)
            (by rcases hcpar with h | h
                · exact Or.inr (Or.inl h)
                · exact Or.inr (Or.inr h)) hno2 with ⟨p, h1, h2, h3, h4⟩ | ⟨h1, h2⟩
        · exact Or.inl ⟨p, h1, h2, by omega, h4⟩
        · exact Or.inr ⟨h1, h2⟩
      · -- an unmarked candidate is a prime and is claimed
        have hbf : st.is_composite (nextCandidate prime) = false := by simpa using hbuf
        have hnb : ((!st.is_composite (nextCandidate prime)) = true) := by simp [hbf]
        rw [if_pos hnb]
        have hprime : Nat.Prime (nextCandidate prime) := by
          by_contra hnp
          have hmf := (Nat.not_prime_iff_minFac_lt hc2).1 hnp
          have hmp := Nat.minFac_prime (by omega : nextCandidate prime ≠ 1)
          by_cases hle2 : (nextCandidate prime).minFac ≤ st.last_prime_found
          · exact hbuf ((hmark _ hcR).2 (Or.inr ⟨_, hmp, hle2, Nat.minFac_dvd _, hmf⟩))
          · exact hno' _ hmp (by omega) (by omega)
        left
        have hll : st.last_prime_found < nextCandidate prime := by omega
        refine ⟨nextCandidate prime, ?_, hprime, hlt, by omega, hcR, hno'⟩
        simp [hll, compare_exchange_strong]

theorem markMultiples_spec (R p : Nat) (hp : 0 < p) (hR : R + p < 18446744073709551616) :
    ∀ (fuel i : Nat) (buf : Nat → Bool), 0 < fuel → R < fuel + i →
      ∃ buf' : Nat → Bool, markMultiples R p fuel i buf = .ok buf' ∧
        ∀ j : Nat, (buf' j = true ↔ (buf j = true ∨ (j < R ∧ ∃ k : Nat, j = i + k * p))) := by
  intro fuel
  induction fuel with
  | zero =>
    intro i buf h0 h
    omega
  | succ n ih =>
    intro i buf _ h
    unfold markMultiples
    by_cases hi : i < R
    · rw [if_pos hi, wrap64_of_lt _ (by omega)]
      obtain ⟨buf', h1, h2⟩ := ih (i + p) (Function.update buf i true) (by omega) (by omega)
      refine ⟨buf', h1, fun j => ?_⟩
      rw [h2 j]
      by_cases hj : j = i
      · subst hj
        simp only [Function.update_same, true_or, true_iff]
        exact Or.inr ⟨hi, 0, by simp⟩
      · rw [Function.update_noteq hj]
        constructor
        · rintro (h3 | ⟨h3, k, h4⟩)
          · exact Or.inl h3
          · exact Or.inr ⟨h3, k + 1, by rw [h4]; ring⟩
        · rintro (h3 | ⟨h3, k, h4⟩)
          · exact Or.inl h3
          · right
            refine ⟨h3, ?_⟩
            cases k with
            | zero => simp at h4; exact absurd h4 hj
            | succ m => exact ⟨m, by rw [h4]; ring⟩
    · rw [if_neg hi]
      refine ⟨buf, rfl, fun j => ?_⟩
      constructor
      · intro h3
        exact Or.inl h3
      · rintro (h3 | ⟨h3, k, h4⟩)
        · exact h3
        · have : i ≤ j := by rw [h4]; exact Nat.le_add_right _ _
          omega

theorem marked_step (R L p : Nat) (buf buf' : Nat → Bool) (hp : Nat.Prime p) (hL : L < p)
    (hno : NoPrimeBetween L (p - 1)) (hm : Marked R L buf)
    (hb : ∀ j : Nat, (buf' j = true ↔ (buf j = true ∨ (j < R ∧ ∃ k : Nat, j = 2 * p + k * p)))) :
    Marked R p buf' := by
  intro i hi
  rw [hb i, hm i hi]
  constructor
  · rintro ((h | ⟨q, hq, h1, h2, h3⟩) | ⟨-, k, hk⟩)
    · exact Or.inl h
    · exact Or.inr ⟨q, hq, by omega, h2, h3⟩
    · right
      refine ⟨p, hp, le_refl _, ⟨2 + k, by rw [hk]; ring⟩, ?_⟩
      have := hp.pos
      rw [hk]
      nlinarith
  · rintro (h | ⟨q, hq, h1, h2, h3⟩)
    · exact Or.inl (Or.inl h)
    · by_cases hqp : q = p
      · subst hqp
        right
        refine ⟨hi, ?_⟩
        obtain ⟨c, hc⟩ := h2
        have hq0 := hq.pos
        have hc2 : 2 ≤ c := by
          by_contra hlt
          have : c = 0 ∨ c = 1 := by omega
          rcases this with h | h
          · subst h; simp at hc; omega
          · subst h; simp at hc; omega
        refine ⟨c - 2, ?_⟩
        rw [hc]
        have : c = (c - 2) + 2 := by omega
        conv_lhs => rw [this]
        ring
      · left
        right
        refine ⟨q, hq, ?_, h2, h3⟩
        by_contra hgt
        exact hno q hq (by omega) (by omega)

theorem sieveLoop_spec (R : Nat) (hlo : SQRT_PRIME_RANGE ≤ R)
    (hhi : R ≤ SQRT_PRIME_RANGE * SQRT_PRIME_RANGE) :
    ∀ (fuel : Nat) (st : SieveState), SieveInv R st →
      SQRT_PRIME_RANGE + 2 ≤ fuel + st.last_prime_found →
      ∃ st' : SieveState, sieveLoop R fuel st = .ok st' ∧ SieveInv R st' ∧
        NoPrimeBetween st'.last_prime_found SQRT_PRIME_RANGE := by
  intro fuel
  induction fuel with
  | zero =>
    intro st hinv h
    have := hinv.2.1
    omega
  | succ n ih =>
    intro st hinv hfuel
    obtain ⟨h0, hle, hmark, hsorted, hmem⟩ := hinv
    have hpar : st.last_prime_found = 0 ∨ st.last_prime_found = 2 ∨
        (st.last_prime_found % 2 = 1 ∧ 3 ≤ st.last_prime_found) := by
      rcases h0 with h | h
      · exact Or.inl h
      · right
        rcases h.eq_two_or_odd with h2 | h2
        · exact Or.inl h2
        · right
          have := h.two_le
          omega
    have hself : NoPrimeBetween st.last_prime_found st.last_prime_found := by
      intro q _ h1 h2
      omega
    unfold sieveLoop
    rcases findPrime_spec R hlo st hmark (SQRT_PRIME_RANGE + 2) st.last_prime_found
        (by omega) (le_refl _) hle hpar hself with ⟨p, h1, hp, hlt, hpS, hpR, hno⟩ | ⟨h1, h2⟩
    · rw [h1]
      simp only
      have hwrap : wrap64 (2 * p) = 2 * p := by
        apply wrap64_of_lt
        unfold SQRT_PRIME_RANGE at hpS
        omega
      have hRp : R + p < 18446744073709551616 := by
        unfold SQRT_PRIME_RANGE at hpS hhi
        omega
      obtain ⟨buf', hb1, hb2⟩ := markMultiples_spec R p hp.pos hRp (R + 1) (wrap64 (2 * p))
        st.is_composite (by omega) (by omega)
      rw [hb1]
      simp only
      rw [hwrap] at hb2
      apply ih
      · refine ⟨Or.inr hp, hpS, marked_step R _ p _ _ hp hlt hno hmark hb2, ?_, ?_⟩
        · simp only [List.pairwise_cons]
          refine ⟨?_, hsorted⟩
          intro a ha
          have := ((hmem a).1 ha).2
          omega
        · intro q
          simp only [List.mem_cons, hmem q]
          constructor
          · rintro (h | ⟨h3, h4⟩)
            · subst h; exact ⟨hp, le_refl _⟩
            · exact ⟨h3, by omega⟩
          · rintro ⟨h3, h4⟩
            by_cases hqp : q = p
            · exact Or.inl hqp
            · right
              refine ⟨h3, ?_⟩
              by_contra hgt
              exact hno q h3 (by omega) (by omega)
      · simp only
        omega
    · rw [h1]
      exact ⟨st, rfl, ⟨h0, hle, hmark, hsorted, hmem⟩, h2⟩

/-- C11 (amended): for a buffer of `R` entries with `SQRT_PRIME_RANGE ≤ R ≤
SQRT_PRIME_RANGE * SQRT_PRIME_RANGE`, false everywhere except at 0 and 1,
one worker started with `last_prime_found = 0` runs to completion without
leaving the buffer; afterwards, for every `i < R`, `is_composite[i]` is
false exactly when `i` is prime; every value the worker claimed is prime,
the claimed values are strictly increasing, and they are the primes up to
`SQRT_PRIME_RANGE`. -/
theorem sieve_correct (R : Nat) (hlo : SQRT_PRIME_RANGE ≤ R)
    (hhi : R ≤ SQRT_PRIME_RANGE * SQRT_PRIME_RANGE) (buf : Nat → Bool)
    (hbuf : ∀ i : Nat, i < R → (buf i = true ↔ i < 2)) :
    ∃ st' : SieveState,
      sieve R { is_composite := buf, last_prime_found := 0, claimed := [] } = .ok st' ∧
      (∀ i : Nat, i < R → (st'.is_composite i = false ↔ Nat.Prime i)) ∧
      (∀ p ∈ st'.claimed.reverse, Nat.Prime p) ∧
      st'.claimed.reverse.Pairwise (fun a b => a < b) ∧
      (∀ p : Nat, p ∈ st'.claimed.reverse ↔ (Nat.Prime p ∧ p ≤ SQRT_PRIME_RANGE)) := by
  have hinv0 : SieveInv R { is_composite := buf, last_prime_found := 0, claimed := [] } := by
    refine ⟨Or.inl rfl, Nat.zero_le _, ?_, List.Pairwise.nil, ?_⟩
    · intro i hi
      rw [hbuf i hi]
      constructor
      · intro h; exact Or.inl h
      · rintro (h | ⟨q, hq, h1, -, -⟩)
        · exact h
        · have := hq.pos
          simp only at h1
          omega
    · intro q
      constructor
      · intro h; simp at h
      · rintro ⟨hq, h1⟩
        have := hq.pos
        simp only at h1
        omega
  obtain ⟨st', hrun, ⟨hz, hle, hmark, hsorted, hmem⟩, hall⟩ :=
    sieveLoop_spec R hlo hhi (SQRT_PRIME_RANGE + 2) _ hinv0 (by simp)
  have hprimes : ∀ q : Nat, Nat.Prime q → q ≤ SQRT_PRIME_RANGE → q ≤ st'.last_prime_found := by
    intro q hq h1
    by_contra h2
    exact hall q hq (by omega) h1
  refine ⟨st', hrun, ?_, ?_, ?_, ?_⟩
  · intro i hi
    constructor
    · intro hf
      by_contra hnp
      have hnm : ¬(st'.is_composite i = true) := by simp [hf]
      apply hnm
      apply (hmark i hi).2
      by_cases h2 : i < 2
      · exact Or.inl h2
      · right
        have hi2 : 2 ≤ i := by omega
        have hmf := (Nat.not_prime_iff_minFac_lt hi2).1 hnp
        have hmp := Nat.minFac_prime (by omega : i ≠ 1)
        refine ⟨i.minFac, hmp, ?_, Nat.minFac_dvd i, hmf⟩
        apply hprimes _ hmp
        have hsq := Nat.minFac_sq_le_self (by omega : 0 < i) hnp
        by_contra hgt
        have h3 : SQRT_PRIME_RANGE < i.minFac := by omega
        have h4 : SQRT_PRIME_RANGE * SQRT_PRIME_RANGE < i.minFac ^ 2 := by
          rw [sq]
          exact Nat.mul_lt_mul'' h3 h3
        omega
    · intro hp
      by_contra hne
      have ht : st'.is_composite i = true := by simpa using hne
      rcases (hmark i hi).1 ht with h | ⟨q, hq, -, hd, hlt⟩
      · have := hp.two_le
        omega
      · have := (Nat.prime_dvd_prime_iff_eq hq hp).1 hd
        omega
  · intro p hp
    exact ((hmem p).1 (List.mem_reverse.1 hp)).1
  · rw [List.pairwise_reverse]
    exact hsorted
  · intro p
    rw [List.mem_reverse, hmem p]
    constructor
    · rintro ⟨h1, h2⟩
      exact ⟨h1, by omega⟩
    · rintro ⟨h1, h2⟩
      exact ⟨h1, hprimes p h1 h2⟩

/-- The program as it is: the buffer of `PRIME_RANGE` entries that `main`
fills, sieved by one worker. -/
theorem sieve_correct_witness :
    ∃ st' : SieveState,
      sieve PRIME_RANGE SieveState.init = .ok st' ∧
      (∀ i : Nat, i < PRIME_RANGE → (st'.is_composite i = false ↔ Nat.Prime i)) ∧
      st'.claimed.reverse.Pairwise (fun a b => a < b) := by
  obtain ⟨st', h1, h2, -, h4, -⟩ :=
    sieve_correct PRIME_RANGE (by decide) (by decide) (fun i => decide (i < 2))
      (fun i _ => by simp)
  exact ⟨st', h1, h2, h4⟩

/-- C11, as stated, fails for a range bound below `SQRT_PRIME_RANGE`: with
a buffer of 9 entries the worker claims 2, 3, 5 and 7 and then reads
`is_composite[9]`, outside the buffer. -/
theorem sieve_counterexample :
    9 ≤ SQRT_PRIME_RANGE * SQRT_PRIME_RANGE ∧
    errorOf (sieve 9 SieveState.init) = some SieveError.outOfBounds := by
  decide

end Sieve

namespace PrimeHive

/-! ## The trial-division search -/

theorem isqrtFrom_spec (n : Nat) :
    ∀ k : Nat, isqrtFrom n k * isqrtFrom n k ≤ n ∧ isqrtFrom n k ≤ k ∧
      ∀ r : Nat, r ≤ k → r * r ≤ n → r ≤ isqrtFrom n k := by
  intro k
  induction k with
  | zero =>
    refine ⟨by simp [isqrtFrom], by simp [isqrtFrom], ?_⟩
    intro r hr _
    simpa [isqrtFrom] using hr
  | succ m ih =>
    unfold isqrtFrom
    by_cases h : (m + 1) * (m + 1) ≤ n
    · rw [if_pos h]
      exact ⟨h, le_refl _, fun r hr _ => hr⟩
    · rw [if_neg h]
      refine ⟨ih.1, by omega, ?_⟩
      intro r hr hrn
      by_cases hrm : r = m + 1
      · subst hrm; exact absurd hrn h
      · exact ih.2.2 r (by omega) hrn

/-- The search gives the integer square root. -/
theorem isqrt_eq_sqrt (n : Nat) : isqrt n = Nat.sqrt n := by
  obtain ⟨h1, -, h3⟩ := isqrtFrom_spec n n
  apply le_antisymm
  · exact Nat.le_sqrt.2 h1
  · apply h3
    · exact Nat.sqrt_le_self n
    · exact Nat.sqrt_le n

theorem isqrt_le_sub_two (t : Nat) (ht : 5 ≤ t) : isqrt t ≤ t - 2 := by
  have h := (isqrtFrom_spec t t).1
  by_contra hc
  have h1 : t - 1 ≤ isqrtFrom t t := by
    unfold isqrt at hc
    omega
  have h2 : (t - 1) * (t - 1) ≤ isqrtFrom t t * isqrtFrom t t := Nat.mul_le_mul h1 h1
  have h3 : 4 * (t - 1) ≤ (t - 1) * (t - 1) := Nat.mul_le_mul_right _ (by omega)
  omega

theorem isqrt_small (t : Nat) (ht : t < 9) : isqrt t < 3 := by
  have h := (isqrtFrom_spec t t).1
  by_contra hc
  have h1 : 3 ≤ isqrtFrom t t := by
    unfold isqrt at hc
    omega
  have h2 : 3 * 3 ≤ isqrtFrom t t * isqrtFrom t t := Nat.mul_le_mul h1 h1
  omega

/-- With one job whose `cur` has reached the square root of `test`, the
outer loop of `is_prime_hive` is left in its first turn. -/
theorem is_prime_hive_total (t : Nat) (job : Job) (h : t < 9 ∨ isqrt t ≤ job.cur) :
    ∃ b : Bool, is_prime_hive t { jobs := [job] } = some b := by
  unfold is_prime_hive
  by_cases he : t % 2 = 0
  · rw [if_pos he]
    exact ⟨_, rfl⟩
  · rw [if_neg he]
    unfold hiveLoop
    by_cases h3 : 3 ≤ isqrt t
    · rw [if_pos h3]
      simp only [List.head?_cons]
      by_cases hb : blockDivides t (isqrt t) job.cur job.prime_block = true
      · rw [if_pos hb]
        exact ⟨_, rfl⟩
      · rw [if_neg hb]
        have hcur : job.cur ≥ isqrt t := by
          rcases h with h | h
          · have := isqrt_small t h
            omega
          · exact h
        rw [if_pos hcur]
        exact ⟨_, rfl⟩
    · rw [if_neg h3]
      exact ⟨_, rfl⟩

/-- From a candidate `t` on, the loop of `find_primes` over the one job
returns, and it only appends to the block. -/
theorem findLoop_keeps (stop : Nat) (hstop : stop < 18446744073709551616) :
    ∀ (fuel t : Nat) (job : Job), job.stop = stop → 0 < fuel → stop < fuel + t →
      t % 2 = 1 → (t < 9 ∨ job.cur + 2 = t) →
      ∃ job' : Job, findLoop 0 fuel t { jobs := [job] } = some { jobs := [job'] } ∧
        ∀ x ∈ job.prime_block, x ∈ job'.prime_block := by
  intro fuel
  induction fuel with
  | zero => intro t job _ h; omega
  | succ n ih =>
    intro t job hjs _ hfuel hodd hcur
    unfold findLoop
    simp only [List.getElem?_cons_zero]
    by_cases hlt : t < job.stop
    · rw [if_pos hlt]
      have hc : t < 9 ∨ isqrt t ≤ job.cur := by
        rcases hcur with h | h
        · exact Or.inl h
        · by_cases h9 : t < 9
          · exact Or.inl h9
          · right
            have := isqrt_le_sub_two t (by omega)
            omega
      obtain ⟨b, hb⟩ := is_prime_hive_total t job hc
      rw [hb]
      simp only
      have hw : wrap64 (t + 2) = t + 2 := Nat.mod_eq_of_lt (by omega)
      rw [hw]
      obtain ⟨job', h1, h2⟩ := ih (t + 2)
        { (if b = true then { job with prime_block := job.prime_block ++ [t] } else job) with
          cur := t }
        (by cases b <;> simp [hjs]) (by omega) (by omega) (by omega) (Or.inr rfl)
      refine ⟨job', ?_, ?_⟩
      · rw [← h1]
        rfl
      · intro x hx
        apply h2
        cases b <;> simp [hx]
    · rw [if_neg hlt]
      exact ⟨job, rfl, fun x hx => hx⟩

theorem findLoop_step (fuel t : Nat) (job : Job) (b : Bool) (hlt : t < job.stop)
    (hb : is_prime_hive t { jobs := [job] } = some b) (hw : t + 2 < 18446744073709551616) :
    findLoop 0 (fuel + 1) t { jobs := [job] } =
      findLoop 0 fuel (t + 2)
        { jobs := [{ (if b = true then { job with prime_block := job.prime_block ++ [t] }
                      else job) with cur := t }] } := by
  rw [findLoop]
  simp only [List.getElem?_cons_zero]
  rw [if_pos hlt, hb]
  simp only
  rw [show wrap64 (t + 2) = t + 2 from Nat.mod_eq_of_lt hw]
  rfl

/-- C12 fails on the code: for every single job covering `[0, stop)` with
`stop ≥ 10`, `find_primes` returns with 9 in the job's `prime_block`, and 9
is not prime.  The test `p >= test_end` in `is_prime_hive` leaves the block
before the divisor 3 = sqrt(9) is tried. -/
theorem find_primes_admits_nine (stop : Nat) (hlo : 10 ≤ stop)
    (hhi : stop < 18446744073709551616) :
    ∃ hive' : Hive, find_primes (Hive.single stop) 0 = some hive' ∧
      9 ∈ blockOf (some hive') ∧ ¬Nat.Prime 9 := by
  have h9 : ¬Nat.Prime 9 := by norm_num
  obtain ⟨job', h1, h2⟩ := findLoop_keeps stop hhi (stop - 3) 11
    { prime_block := [2, 3, 5, 7, 9], cur := 9, start := 3, stop := stop, id := 0 }
    rfl (by omega) (by omega) (by decide) (Or.inr rfl)
  refine ⟨{ jobs := [job'] }, ?_, ?_, h9⟩
  · rw [← h1]
    have e0 : find_primes (Hive.single stop) 0 = findLoop 0 (stop + 1) 3
        { jobs := [{ prime_block := [2], cur := 0, start := 3, stop := stop, id := 0 }] } := by
      simp [find_primes, Hive.single, Hive.setJob]
    have e : stop + 1 = (stop - 3) + 1 + 1 + 1 + 1 := by omega
    have s1 : findLoop 0 ((stop - 3) + 1 + 1 + 1 + 1) 3
        { jobs := [{ prime_block := [2], cur := 0, start := 3, stop := stop, id := 0 }] } =
        findLoop 0 ((stop - 3) + 1 + 1 + 1) 5
        { jobs := [{ prime_block := [2, 3], cur := 3, start := 3, stop := stop, id := 0 }] } :=
      findLoop_step _ 3 { prime_block := [2], cur := 0, start := 3, stop := stop, id := 0 }
        true (by show 3 < stop; omega) rfl (by omega)
    have s2 : findLoop 0 ((stop - 3) + 1 + 1 + 1) 5
        { jobs := [{ prime_block := [2, 3], cur := 3, start := 3, stop := stop, id := 0 }] } =
        findLoop 0 ((stop - 3) + 1 + 1) 7
        { jobs := [{ prime_block := [2, 3, 5], cur := 5, start := 3, stop := stop, id := 0 }] } :=
      findLoop_step _ 5 { prime_block := [2, 3], cur := 3, start := 3, stop := stop, id := 0 }
        true (by show 5 < stop; omega) rfl (by omega)
    have s3 : findLoop 0 ((stop - 3) + 1 + 1) 7
        { jobs := [{ prime_block := [2, 3, 5], cur := 5, start := 3, stop := stop, id := 0 }] } =
        findLoop 0 ((stop - 3) + 1) 9
        { jobs := [{ prime_block := [2, 3, 5, 7], cur := 7, start := 3, stop := stop,
                     id := 0 }] } :=
      findLoop_step _ 7 { prime_block := [2, 3, 5], cur := 5, start := 3, stop := stop, id := 0 }
        true (by show 7 < stop; omega) rfl (by omega)
    have s4 : findLoop 0 ((stop - 3) + 1) 9
        { jobs := [{ prime_block := [2, 3, 5, 7], cur := 7, start := 3, stop := stop,
                     id := 0 }] } =
        findLoop 0 (stop - 3) 11
        { jobs := [{ prime_block := [2, 3, 5, 7, 9], cur := 9, start := 3, stop := stop,
                     id := 0 }] } :=
      findLoop_step _ 9
        { prime_block := [2, 3, 5, 7], cur := 7, start := 3, stop := stop, id := 0 }
        true (by show 9 < stop; omega) rfl (by omega)
    rw [e0, e, s1, s2, s3, s4]
  · simp only [blockOf, List.head?_cons, Option.map_some', Option.getD_some]
    exact h2 9 (by simp)

/-- The job covering `[0, 30)`: the run admits 9, 15 and 25. -/
theorem find_primes_admits_nine_witness :
    (∃ hive' : Hive, find_primes (Hive.single 30) 0 = some hive' ∧
      9 ∈ blockOf (some hive') ∧ ¬Nat.Prime 9) ∧
    blockOf (find_primes (Hive.single 30) 0) = [2, 3, 5, 7, 9, 11, 13, 15, 17, 19, 23, 25, 29] :=
  ⟨find_primes_admits_nine 30 (by decide) (by decide), by decide⟩

end PrimeHive

namespace DescStack

/-! ## The descriptor stack and the list -/

theorem wrapInt32_id (x : Int) (h1 : -2147483648 ≤ x) (h2 : x ≤ 2147483647) :
    wrapInt32 x = x := by
  unfold wrapInt32
  omega

theorem wrapInt32_succ (x : Int) : wrapInt32 (wrapInt32 x + 1) = wrapInt32 (x + 1) := by
  unfold wrapInt32
  omega

theorem wrapInt32_pred (x : Int) : wrapInt32 (wrapInt32 x - 1) = wrapInt32 (x - 1) := by
  unfold wrapInt32
  omega

theorem chain_update (next : Nat → Nat) (node v : Nat) :
    ∀ (l : List Nat) (head : Nat), node ∉ l →
      (Chain (Function.update next node v) head l ↔ Chain next head l) := by
  intro l
  induction l with
  | nil => intro head _; exact Iff.rfl
  | cons x xs ih =>
    intro head hn
    simp only [List.mem_cons, not_or] at hn
    have hx : x ≠ node := fun h => hn.1 h.symm
    simp only [Chain, Function.update_noteq hx]
    rw [ih _ hn.2]

theorem push_null (s : Stack) : s.push 0 = some (false, s) := by
  simp [Stack.push]

theorem push_node (s : Stack) (node : Nat) (h : node ≠ 0) :
    s.push node = some (true,
      { numOps := wrapInt32 (s.numOps + 1),
        desc := { head := node, size := wrapInt32 (s.desc.size + 1) },
        next := Function.update s.next node s.desc.head }) := by
  simp [Stack.push, Stack.pushLoop, h]

theorem pop_empty (s : Stack) (h : s.desc.head = 0) : s.pop = some (0, s) := by
  simp [Stack.pop, Stack.popLoop, h]

theorem pop_node (s : Stack) (h : s.desc.head ≠ 0) :
    s.pop = some (s.desc.head,
      { numOps := wrapInt32 (s.numOps + 1),
        desc := { head := s.next s.desc.head, size := wrapInt32 (s.desc.size - 1) },
        next := s.next }) := by
  simp [Stack.pop, Stack.popLoop, h]

/-- One call on a stack that relates to a list: it returns what the list
returns, a size as an `int`, and the stack relates to the list after it. -/
theorem apply_refines (s : Stack) (l : List Nat) (op : Op) (hrel : Rel s l)
    (hfresh : ∀ node : Nat, op = .push node → node ≠ 0 → node ∉ l) :
    ∃ s' : Stack, s.apply op = some (((specApply l op).1).wrap, s') ∧
      Rel s' (specApply l op).2 := by
  obtain ⟨hchain, hsize⟩ := hrel
  cases op with
  | push node =>
    by_cases h0 : node = 0
    · subst h0
      refine ⟨s, ?_, ?_⟩
      · simp [Stack.apply, push_null, specApply, Ret.wrap]
      · simpa [specApply] using And.intro hchain hsize
    · have hnl := hfresh node rfl h0
      refine ⟨{ numOps := wrapInt32 (s.numOps + 1),
                desc := { head := node, size := wrapInt32 (s.desc.size + 1) },
                next := Function.update s.next node s.desc.head }, ?_, ?_⟩
      · simp only [Stack.apply, push_node s node h0, specApply, if_neg h0, Ret.wrap]
      · simp only [specApply, if_neg h0]
        refine ⟨?_, ?_⟩
        · refine ⟨rfl, h0, ?_⟩
          simp only [Function.update_same]
          exact (chain_update s.next node _ l _ hnl).2 hchain
        · simp only [hsize, wrapInt32_succ, List.length_cons, Nat.cast_add, Nat.cast_one]
  | pop =>
    cases l with
    | nil =>
      have hh : s.desc.head = 0 := hchain
      refine ⟨s, ?_, ?_⟩
      · simp [Stack.apply, pop_empty s hh, specApply, Ret.wrap]
      · exact ⟨hchain, hsize⟩
    | cons x xs =>
      obtain ⟨hx, hx0, hrest⟩ := hchain
      have hh : s.desc.head ≠ 0 := by rw [hx]; exact hx0
      refine ⟨{ numOps := wrapInt32 (s.numOps + 1),
                desc := { head := s.next s.desc.head, size := wrapInt32 (s.desc.size - 1) },
                next := s.next }, ?_, ?_⟩
      · simp only [Stack.apply, pop_node s hh, specApply, Ret.wrap, hx]
      · refine ⟨?_, ?_⟩
        · simp only [specApply]
          rw [hx]
          exact hrest
        · simp only [specApply, hsize, wrapInt32_pred, List.length_cons, Nat.cast_add,
            Nat.cast_one, add_sub_cancel_right]
  | size =>
    refine ⟨s.size.2, ?_, ?_⟩
    · simp only [Stack.apply, Stack.size, specApply, Ret.wrap, hsize]
    · exact ⟨hchain, hsize⟩

theorem run_refines :
    ∀ (ops : List Op) (s : Stack) (l : List Nat), Rel s l → FreshOk l ops →
      ∃ s' : Stack, s.run ops = some (((specRun l ops).1).map Ret.wrap, s') ∧
        Rel s' (specRun l ops).2 := by
  intro ops
  induction ops with
  | nil =>
    intro s l hrel _
    exact ⟨s, rfl, hrel⟩
  | cons op rest ih =>
    intro s l hrel hfresh
    obtain ⟨s1, h1, hrel1⟩ := apply_refines s l op hrel hfresh.1
    obtain ⟨s2, h2, hrel2⟩ := ih s1 _ hrel1 hfresh.2
    refine ⟨s2, ?_, hrel2⟩
    simp only [Stack.run, h1, h2, specRun, List.map_cons]

theorem specApply_subset (l : List Nat) (op : Op) (x : Nat) (hx : x ∈ (specApply l op).2) :
    x ∈ l ∨ (op = .push x ∧ x ≠ 0) := by
  cases op with
  | push node =>
    by_cases h0 : node = 0
    · simp only [specApply, if_pos h0] at hx
      exact Or.inl hx
    · simp only [specApply, if_neg h0, List.mem_cons] at hx
      rcases hx with h | h
      · subst h
        exact Or.inr ⟨rfl, h0⟩
      · exact Or.inl h
  | pop =>
    cases l with
    | nil => simp [specApply] at hx
    | cons y ys =>
      simp only [specApply] at hx
      exact Or.inl (List.mem_cons_of_mem _ hx)
  | size => exact Or.inl hx

theorem pushedNodes_cons (op : Op) (rest : List Op) :
    pushedNodes (op :: rest) =
      (match op with
        | .push node => if node = 0 then [] else [node]
        | _ => []) ++ pushedNodes rest := by
  cases op with
  | push node =>
    by_cases h0 : node = 0
    · simp [pushedNodes, h0]
    · simp [pushedNodes, h0]
  | pop => simp [pushedNodes]
  | size => simp [pushedNodes]

/-- Pushes of distinct nodes, none of them in the list at the start, are
pushes of nodes that are not in the list when they are pushed. -/
theorem freshOk_of_nodup :
    ∀ (ops : List Op) (l : List Nat), (∀ x ∈ l, x ∉ pushedNodes ops) →
      (pushedNodes ops).Nodup → FreshOk l ops := by
  intro ops
  induction ops with
  | nil => intro l _ _; trivial
  | cons op rest ih =>
    intro l hdis hnd
    rw [pushedNodes_cons] at hdis hnd
    refine ⟨?_, ?_⟩
    · intro node hop h0 hmem
      subst hop
      apply hdis node hmem
      simp [h0]
    · apply ih
      · intro x hx hxr
        rcases specApply_subset l op x hx with h | ⟨h, h0⟩
        · exact hdis x h (List.mem_append_right _ hxr)
        · subst h
          simp only [if_neg h0, List.singleton_append, List.nodup_cons] at hnd
          exact hnd.1 hxr
      · exact (List.nodup_append.1 hnd).2.1

theorem specApply_wrap (l : List Nat) (op : Op) (h : l.length ≤ 2147483647) :
    ((specApply l op).1).wrap = (specApply l op).1 := by
  cases op with
  | push node =>
    by_cases h0 : node = 0 <;> simp [specApply, h0, Ret.wrap]
  | pop =>
    cases l <;> simp [specApply, Ret.wrap]
  | size =>
    simp only [specApply, Ret.wrap]
    rw [wrapInt32_id _ (by omega) (by omega)]

theorem specRun_wrap :
    ∀ (ops : List Op) (l : List Nat), DepthOk l ops →
      ((specRun l ops).1).map Ret.wrap = (specRun l ops).1 ∧
      (specRun l ops).2.length ≤ 2147483647 := by
  intro ops
  induction ops with
  | nil =>
    intro l h
    exact ⟨rfl, h⟩
  | cons op rest ih =>
    intro l h
    obtain ⟨h1, h2⟩ := ih _ h.2
    refine ⟨?_, h2⟩
    simp only [specRun, List.map_cons, specApply_wrap l op h.1, h1]

theorem specApply_nonnull (l : List Nat) (op : Op) (h : 0 ∉ l) : 0 ∉ (specApply l op).2 := by
  intro h0
  rcases specApply_subset l op 0 h0 with h1 | ⟨-, h1⟩
  · exact h h1
  · exact h1 rfl

/-- The length of the list is what it had, plus the pushes that returned
true, minus the pops that returned a node. -/
theorem specRun_count :
    ∀ (ops : List Op) (l : List Nat), 0 ∉ l →
      (specRun l ops).2.length + popCount (specRun l ops).1 =
        l.length + pushCount (specRun l ops).1 := by
  intro ops
  induction ops with
  | nil => intro l _; simp [specRun, popCount, pushCount]
  | cons op rest ih =>
    intro l hl
    have h := ih (specApply l op).2 (specApply_nonnull l op hl)
    unfold popCount pushCount at h ⊢
    simp only [specRun, List.countP_cons]
    cases op with
    | push node =>
      by_cases h0 : node = 0
      · simp only [specApply, if_pos h0] at h ⊢
        simp only [Ret.isNode, Ret.isPushed, Bool.false_eq_true, if_false]
        omega
      · simp only [specApply, if_neg h0, List.length_cons] at h ⊢
        simp only [Ret.isNode, Ret.isPushed, Bool.false_eq_true, if_false, if_true]
        omega
    | pop =>
      cases l with
      | nil =>
        simp only [specApply, List.length_nil] at h ⊢
        simp only [Ret.isNode, Ret.isPushed, ne_eq, not_true_eq_false, decide_False,
          Bool.false_eq_true, if_false]
        omega
      | cons x xs =>
        have hx : x ≠ 0 := by
          intro hx0
          apply hl
          rw [hx0]
          exact List.mem_cons_self _ _
        simp only [specApply, List.length_cons] at h ⊢
        simp only [Ret.isNode, Ret.isPushed, Bool.false_eq_true, if_false, ne_eq, hx,
          not_false_eq_true, decide_True, if_true]
        omega
    | size =>
      simp only [specApply] at h ⊢
      simp only [Ret.isNode, Ret.isPushed, Bool.false_eq_true, if_false]
      omega

theorem specRun_append (a b : List Op) :
    ∀ l : List Nat, specRun l (a ++ b) =
      ((specRun l a).1 ++ (specRun (specRun l a).2 b).1, (specRun (specRun l a).2 b).2) := by
  induction a with
  | nil => intro l; rfl
  | cons op rest ih =>
    intro l
    show specRun l (op :: (rest ++ b)) = _
    simp only [specRun, ih, List.cons_append]

theorem manyPushes_succ (n : Nat) : manyPushes (n + 1) = manyPushes n ++ [Op.push (n + 1)] := by
  simp [manyPushes, List.range_succ]

theorem specRun_manyPushes (n : Nat) : (specRun [] (manyPushes n)).2.length = n := by
  induction n with
  | zero => rfl
  | succ m ih =>
    rw [manyPushes_succ, specRun_append]
    simp only [specRun, specApply, Nat.add_one_ne_zero, if_false, List.length_cons, ih]

theorem pushedNodes_manyPushes (n : Nat) :
    pushedNodes (manyPushes n ++ [Op.size]) = (List.range n).map fun (i : Nat) => i + 1 := by
  simp only [pushedNodes, manyPushes, List.filterMap_append, List.filterMap_map]
  simp only [List.filterMap_cons, List.filterMap_nil, List.append_nil]
  rw [← List.filterMap_eq_map]
  apply List.filterMap_congr
  intro i _
  simp

/-- After pushes of the nodes `1, ..., n` onto the empty stack, `size()`
returns `n` as an `int` holds it. -/
theorem manyPushes_size (next : Nat → Nat) (n : Nat) :
    ∃ (rets : List Ret) (s' : Stack),
      (Stack.init next).run (manyPushes n ++ [Op.size]) = some (rets, s') ∧
      rets.getLast? = some (Ret.size (wrapInt32 (n : Int))) ∧
      (specRun [] (manyPushes n ++ [Op.size])).1.getLast? = some (Ret.size (n : Int)) ∧
      (pushedNodes (manyPushes n ++ [Op.size])).Nodup := by
  have hnd : (pushedNodes (manyPushes n ++ [Op.size])).Nodup := by
    rw [pushedNodes_manyPushes]
    exact List.Nodup.map (fun a b h => by simpa using h) (List.nodup_range n)
  have hfresh := freshOk_of_nodup (manyPushes n ++ [Op.size]) [] (fun x hx => by simp at hx) hnd
  have hrel : Rel (Stack.init next) [] := ⟨rfl, rfl⟩
  obtain ⟨s', hrun, -⟩ := run_refines _ _ _ hrel hfresh
  have hspec : (specRun [] (manyPushes n ++ [Op.size])).1 =
      (specRun [] (manyPushes n)).1 ++ [Ret.size (n : Int)] := by
    rw [specRun_append]
    simp only [specRun, specApply, specRun_manyPushes]
  refine ⟨_, s', hrun, ?_, ?_, hnd⟩
  · rw [hspec, List.map_append, List.map_cons, List.map_nil, List.getLast?_append]
    rfl
  · rw [hspec, List.getLast?_append]
    rfl

/-- C13 (amended): started empty and called one call at a time with pushes
of distinct nodes or of null, over every sequence of calls during which the
stack never holds more than 2^31 - 1 nodes, the stack returns what the LIFO
list returns: true for the push of a node, which is then on top, false for
`push(null)`, which changes nothing, for `pop` the node pushed last and not
yet popped, or null on the empty stack, which changes nothing, and for
`size()` the number of nodes reachable from `head`, which is the number of
pushes that returned true minus the number of pops that returned a node. -/
theorem stack_refines_list (next : Nat → Nat) (ops : List Op)
    (hd : (pushedNodes ops).Nodup) (hb : DepthOk [] ops) :
    (∃ (rets : List Ret) (s' : Stack),
      (Stack.init next).run ops = some (rets, s') ∧
      rets = (specRun [] ops).1 ∧
      Chain s'.next s'.desc.head (specRun [] ops).2 ∧
      s'.desc.size = ((specRun [] ops).2.length : Int) ∧
      (specRun [] ops).2.length + popCount rets = pushCount rets) ∧
    (∀ s : Stack, s.push 0 = some (false, s)) ∧
    (∀ s : Stack, s.desc.head = 0 → s.pop = some (0, s)) ∧
    (∀ (s : Stack) (node : Nat), node ≠ 0 →
      ∃ s' : Stack, s.push node = some (true, s') ∧ s'.desc.head = node ∧
        s'.next node = s.desc.head) := by
  refine ⟨?_, push_null, pop_empty, ?_⟩
  · have hfresh := freshOk_of_nodup ops [] (fun x hx => by simp at hx) hd
    have hrel : Rel (Stack.init next) [] := ⟨rfl, rfl⟩
    obtain ⟨s', hrun, hchain, hsize⟩ := run_refines ops _ _ hrel hfresh
    obtain ⟨hw, hlen⟩ := specRun_wrap ops [] hb
    rw [hw] at hrun
    refine ⟨_, s', hrun, rfl, hchain, ?_, ?_⟩
    · rw [hsize, wrapInt32_id _ (by omega) (by omega)]
    · have := specRun_count ops [] (by simp)
      simpa using this
  · intro s node h0
    exact ⟨_, push_node s node h0, rfl, by simp⟩

/-- Two pushes, a push of null and three pops: the calls return what the
list returns. -/
theorem stack_refines_list_witness :
    ∃ (rets : List Ret) (s' : Stack),
      (Stack.init fun _ => 0).run sampleOps = some (rets, s') ∧
      rets = [.pushed true, .pushed true, .size 2, .popped 2, .pushed false, .popped 1,
        .popped 0, .size 0] ∧
      s'.desc.size = 0 := by
  obtain ⟨⟨rets, s', h1, h2, -, h4, -⟩, -⟩ :=
    stack_refines_list (fun _ => 0) sampleOps (by decide)
      (by simp [DepthOk, sampleOps, specApply])
  exact ⟨rets, s', h1, h2, h4⟩

/-- C13, as stated, fails once the `int` size overflows: after 2^31 pushes
of distinct nodes onto the empty stack `size()` returns -2147483648, while
2147483648 nodes are reachable from `head`. -/
theorem stack_size_counterexample :
    (pushedNodes (manyPushes 2147483648 ++ [Op.size])).Nodup ∧
    ∃ (rets : List Ret) (s' : Stack),
      (Stack.init fun _ => 0).run (manyPushes 2147483648 ++ [Op.size]) = some (rets, s') ∧
      rets.getLast? = some (Ret.size (-2147483648)) ∧
      (specRun [] (manyPushes 2147483648 ++ [Op.size])).1.getLast?
        = some (Ret.size 2147483648) := by
  obtain ⟨rets, s', h1, h2, h3, h4⟩ := manyPushes_size (fun _ => 0) 2147483648
  have e : wrapInt32 ((2147483648 : Nat) : Int) = -2147483648 := by decide
  rw [e] at h2
  exact ⟨h4, rets, s', h1, h2, h3⟩

end DescStack
